import Mathlib

/-!
# MLFQ scheduler: a shallow embedding of `src/MLFQ.ts`

This file embeds the Multi-Level Feedback Queue scheduler of `MLFQ.ts`
(and its behaviourally identical variants `MLFQ.js` and the unnamed copy)
in Lean and proves the spec-level properties about it.

Modelling choices:
* JS mutates `TrackedJob` objects shared between the `jobs` array and the
  per-level queues.  Here the state owns a single `List TrackedJob` and the
  queues hold *indices* into that list, which is the standard functional
  rendering of that aliasing.
* JS numbers are used only at integer values; times and quanta are `Nat`
  (turnaround/waiting statistics are `Int`, since the source can produce
  the sentinel `-1`).
* The `while` loop is run on explicit fuel; `RunOutcome.outOfFuel` marks
  fuel exhaustion, `RunOutcome.crashed` marks the runtime `TypeError` that
  JS raises when `queues[0]` does not exist (empty quantum list).
* The timeline is kept as structured intervals; `renderInterval` produces
  exactly the strings the source pushes onto `executionTimeline`.
-/

/-- A static input job (`interface Job`). -/
structure Job where
  id : String
  arrivalTime : Nat
  burstTime : Nat
deriving DecidableEq, Repr

/-- A per-run working copy (`interface TrackedJob`). -/
structure TrackedJob where
  id : String
  arrivalTime : Nat
  burstTime : Nat
  remainingTime : Nat
  currentLevel : Nat
  completionTime : Option Nat
  enqueued : Bool
deriving DecidableEq, Repr

/-- The per-run copy made at the top of `runMLFQ`:
`{...job, remainingTime: job.burstTime, currentLevel: 0, completionTime: null, enqueued: false}`. -/
def toTracked (j : Job) : TrackedJob :=
  { id := j.id, arrivalTime := j.arrivalTime, burstTime := j.burstTime,
    remainingTime := j.burstTime, currentLevel := 0,
    completionTime := none, enqueued := false }

/-- Label of a timeline entry: a job run at a level, or an idle unit. -/
inductive TimelineLabel where
  | idle : TimelineLabel
  | job (id : String) (level : Nat) : TimelineLabel
deriving DecidableEq, Repr

/-- One entry of the execution timeline. -/
structure ExecInterval where
  startTime : Nat
  endTime : Nat
  label : TimelineLabel
deriving DecidableEq, Repr

/-- The string the source pushes for an interval:
either `"{t}-{t+1}: IDLE"` or `"{t}-{t+rt}: {id} (Level {lvl})"`. -/
def renderInterval (iv : ExecInterval) : String :=
  match iv.label with
  | .idle =>
      toString iv.startTime ++ "-" ++ toString iv.endTime ++ ": IDLE"
  | .job id level =>
      toString iv.startTime ++ "-" ++ toString iv.endTime ++ ": " ++ id
        ++ " (Level " ++ toString level ++ ")"

/-- The mutable state of a run of `runMLFQ`. -/
structure MLFQState where
  jobs : List TrackedJob
  currentTime : Nat
  jobsFinished : Nat
  queues : List (List Nat)
  executionTimeline : List ExecInterval
deriving DecidableEq, Repr

/-- The state just before the `while` loop: fresh tracked copies,
clock 0, no job finished, one empty queue per level, empty timeline. -/
def initState (inputJobs : List Job) (timeQuantums : List Nat) : MLFQState :=
  { jobs := inputJobs.map toTracked,
    currentTime := 0,
    jobsFinished := 0,
    queues := timeQuantums.map (fun _ => []),
    executionTimeline := [] }

/-- The `jobs.forEach` admission pass: flips `enqueued` on every
not-yet-enqueued job whose arrival time is `≤ t` and returns the indices
of those jobs, in job-list order (the order `forEach` pushes them). -/
def admitJobs (t : Nat) : List TrackedJob → List TrackedJob × List Nat
  | [] => ([], [])
  | j :: rest =>
      let r := admitJobs t rest
      if !j.enqueued && j.arrivalTime ≤ t then
        ({ j with enqueued := true } :: r.1, 0 :: r.2.map (· + 1))
      else
        (j :: r.1, r.2.map (· + 1))

/-- `queues[0].push(...)` for each admitted job.  When the queue list is
empty and at least one push happens, JS raises a `TypeError`
(`queues[0]` is `undefined`); that is the `none` case. -/
def pushAll (queues : List (List Nat)) (idxs : List Nat) :
    Option (List (List Nat)) :=
  match queues with
  | [] => if idxs.isEmpty then some [] else none
  | q0 :: rest => some ((q0 ++ idxs) :: rest)

/-- The scan for the highest-priority non-empty queue
(`findIndex` + `shift`): returns the level, the removed head index and
the queues after removal. -/
def findNonEmpty : List (List Nat) → Option (Nat × Nat × List (List Nat))
  | [] => none
  | [] :: rest =>
      match findNonEmpty rest with
      | none => none
      | some (lvl, i, rest') => some (lvl + 1, i, [] :: rest')
  | (i :: qtail) :: rest => some (0, i, qtail :: rest)

/-- `queues[lvl].push(i)`; `none` if the level does not exist
(never reached in real runs since the demoted level is `≤ maxLevel`). -/
def enqueueAt (queues : List (List Nat)) (lvl : Nat) (i : Nat) :
    Option (List (List Nat)) :=
  match queues[lvl]? with
  | none => none
  | some q => some (queues.set lvl (q ++ [i]))

/-- One iteration of the `while (jobsFinished < jobs.length)` body.
`none` models a JS runtime `TypeError` (out-of-bounds structure access);
`some s'` is the state at the next loop test. -/
def mlfqStep (timeQuantums : List Nat) (s : MLFQState) : Option MLFQState :=
  let a := admitJobs s.currentTime s.jobs
  match pushAll s.queues a.2 with
  | none => none
  | some queues1 =>
    match findNonEmpty queues1 with
    | none =>
        -- If no job is ready, CPU is idle for one unit
        some { s with
          jobs := a.1,
          queues := queues1,
          executionTimeline := s.executionTimeline
            ++ [⟨s.currentTime, s.currentTime + 1, .idle⟩],
          currentTime := s.currentTime + 1 }
    | some (lvl, i, queues2) =>
        match a.1[i]?, timeQuantums[lvl]? with
        | some job, some quantum =>
            let runTime := min quantum job.remainingTime
            let newTime := s.currentTime + runTime
            let timeline' := s.executionTimeline
              ++ [⟨s.currentTime, newTime, .job job.id lvl⟩]
            if job.remainingTime - runTime = 0 then
              some { jobs := a.1.set i
                       { job with remainingTime := 0,
                                  completionTime := some newTime },
                     currentTime := newTime,
                     jobsFinished := s.jobsFinished + 1,
                     queues := queues2,
                     executionTimeline := timeline' }
            else
              let maxLevel := timeQuantums.length - 1
              let newLevel := min (job.currentLevel + 1) maxLevel
              let job' := { job with
                remainingTime := job.remainingTime - runTime,
                currentLevel := newLevel }
              match enqueueAt queues2 newLevel i with
              | none => none
              | some queues3 =>
                  some { jobs := a.1.set i job',
                         currentTime := newTime,
                         jobsFinished := s.jobsFinished,
                         queues := queues3,
                         executionTimeline := timeline' }
        | _, _ => none

/-- Outcome of running the loop on a given amount of fuel. -/
inductive RunOutcome where
  | outOfFuel : RunOutcome
  | crashed : RunOutcome
  | finished (s : MLFQState) : RunOutcome
deriving DecidableEq, Repr

/-- The `while (jobsFinished < jobs.length)` loop, on fuel. -/
def mlfqLoop (timeQuantums : List Nat) : Nat → MLFQState → RunOutcome
  | 0, _ => .outOfFuel
  | fuel + 1, s =>
      if s.jobsFinished < s.jobs.length then
        match mlfqStep timeQuantums s with
        | none => .crashed
        | some s' => mlfqLoop timeQuantums fuel s'
      else .finished s

/-- One element of the returned statistics (`interface JobStats`). -/
structure JobStats where
  id : String
  turnaroundTime : Int
  waitingTime : Int
deriving DecidableEq, Repr

/-- Second half of the statistics body: the tracked job was found; if its
completion time is unset the source logs and returns the `-1` sentinels,
otherwise it computes turnaround and waiting time. -/
def statsOfTracked (originalJob : Job) (trackedJob : TrackedJob) : JobStats :=
  match trackedJob.completionTime with
  | none =>
      { id := originalJob.id, turnaroundTime := -1, waitingTime := -1 }
  | some c =>
      let turnaroundTime : Int := (c : Int) - trackedJob.arrivalTime
      { id := trackedJob.id,
        turnaroundTime := turnaroundTime,
        waitingTime := turnaroundTime - trackedJob.burstTime }

/-- One entry of the statistics pass: look the job up by id in the
tracked list (`jobs.find`); a missing job yields the `-1` sentinels
(the source's combined `!trackedJob || completionTime === null` check is
split across this function and `statsOfTracked`). -/
def statsFor (jobs : List TrackedJob) (originalJob : Job) : JobStats :=
  match jobs.find? (fun j => j.id == originalJob.id) with
  | none => { id := originalJob.id, turnaroundTime := -1, waitingTime := -1 }
  | some trackedJob => statsOfTracked originalJob trackedJob

/-- The statistics pass at the end of `runMLFQ`: one entry per *input*
job, in registry order. -/
def computeStats (inputJobs : List Job) (jobs : List TrackedJob) :
    List JobStats :=
  inputJobs.map (statsFor jobs)

/-- The overall result of `runMLFQ`: the timeline it prints and the
statistics it returns. -/
structure MLFQResult where
  executionTimeline : List ExecInterval
  jobStats : List JobStats
deriving DecidableEq, Repr

/-- Outcome of a whole `runMLFQ` call. -/
inductive MLFQOutcome where
  | outOfFuel : MLFQOutcome
  | crashed : MLFQOutcome
  | ok (r : MLFQResult) : MLFQOutcome
deriving DecidableEq, Repr

/-- `runMLFQ`, with the source's captured global `inputJobs` made an
explicit parameter.  State is created first (`initState`), then the loop
runs, then statistics are derived. -/
def runMLFQ (inputJobs : List Job) (timeQuantums : List Nat) (fuel : Nat) :
    MLFQOutcome :=
  match mlfqLoop timeQuantums fuel (initState inputJobs timeQuantums) with
  | .outOfFuel => .outOfFuel
  | .crashed => .crashed
  | .finished s => .ok ⟨s.executionTimeline, computeStats inputJobs s.jobs⟩

/-- The source's global job set. -/
def inputJobs : List Job :=
  [⟨"A", 0, 10⟩, ⟨"B", 1, 5⟩, ⟨"C", 2, 8⟩]

/-- The source's `defaultQuantums` (also its top-level `timeQuantums`). -/
def defaultQuantums : List Nat := [5, 10, 20]

/-- Projection of a run outcome onto the statistics list. -/
def statsOf : MLFQOutcome → Option (List JobStats)
  | .ok r => some r.jobStats
  | _ => none

/-- Runs the simulation twice on the same registry and configuration, the
way the source's test harness calls `runMLFQ` repeatedly; each call makes
its own fresh `initState`. -/
def runTwice (inputJobs : List Job) (timeQuantums : List Nat) (fuel : Nat) :
    MLFQOutcome × MLFQOutcome :=
  (runMLFQ inputJobs timeQuantums fuel, runMLFQ inputJobs timeQuantums fuel)

/-- The final state of the source's first test
(`runMLFQ([5, 10, 20])` on the global `inputJobs`). -/
def exampleFinalState : MLFQState :=
  { jobs :=
      [{ id := "A", arrivalTime := 0, burstTime := 10, remainingTime := 0,
         currentLevel := 1, completionTime := some 20, enqueued := true },
       { id := "B", arrivalTime := 1, burstTime := 5, remainingTime := 0,
         currentLevel := 0, completionTime := some 10, enqueued := true },
       { id := "C", arrivalTime := 2, burstTime := 8, remainingTime := 0,
         currentLevel := 1, completionTime := some 23, enqueued := true }],
    currentTime := 23,
    jobsFinished := 3,
    queues := [[], [], []],
    executionTimeline :=
      [⟨0, 5, .job "A" 0⟩, ⟨5, 10, .job "B" 0⟩, ⟨10, 15, .job "C" 0⟩,
       ⟨15, 20, .job "A" 1⟩, ⟨20, 23, .job "C" 1⟩] }

theorem exampleFinalState_run :
    mlfqLoop defaultQuantums 30 (initState inputJobs defaultQuantums)
      = .finished exampleFinalState := by
  rfl

/-- C1, counterexample: on jobs A(0,10), B(1,5), C(2,8) with quanta
[5,10,20], job A's reported statistics are turnaround 20 and waiting 10,
not the turnaround 15 and waiting 5 the claim asserts (after B completes
at t=10, C — admitted at t=2 and still in queue 0 — has priority over the
level-1 job A, so A only runs at t=15 and finishes at t=20). -/
theorem c1_counterexample :
    (statsOf (runMLFQ inputJobs defaultQuantums 30)).bind (fun l => l[0]?)
        = some ⟨"A", 20, 10⟩ ∧
      (⟨"A", 20, 10⟩ : JobStats) ≠ ⟨"A", 15, 5⟩ := by
  exact ⟨rfl, by decide⟩

/-- C1, amended: on jobs A(0,10), B(1,5), C(2,8) with quanta [5,10,20],
A runs first at t=0 for 5 units and is demoted to level 1; B runs at t=5
from queue 0 and completes (turnaround 9, waiting 4); C runs at t=10 from
queue 0 for 5 units and is demoted; A then runs from level 1 at t=15 and
finishes at t=20 (turnaround 20, waiting 10); C finishes at t=23
(turnaround 21, waiting 13). -/
theorem c1_amended :
    runMLFQ inputJobs defaultQuantums 30 =
      .ok { executionTimeline :=
              [⟨0, 5, .job "A" 0⟩, ⟨5, 10, .job "B" 0⟩, ⟨10, 15, .job "C" 0⟩,
               ⟨15, 20, .job "A" 1⟩, ⟨20, 23, .job "C" 1⟩],
            jobStats :=
              [⟨"A", 20, 10⟩, ⟨"B", 9, 4⟩, ⟨"C", 21, 13⟩] } := by
  rfl

/-- The periodic loop state reached when the source runs its job set with
the single quantum 0: job A is admitted and endlessly re-dispatched with
`runTime = 0`; only the timeline grows. -/
def c2AuxState (tl : List ExecInterval) : MLFQState :=
  { jobs :=
      [{ id := "A", arrivalTime := 0, burstTime := 10, remainingTime := 10,
         currentLevel := 0, completionTime := none, enqueued := true },
       { id := "B", arrivalTime := 1, burstTime := 5, remainingTime := 5,
         currentLevel := 0, completionTime := none, enqueued := false },
       { id := "C", arrivalTime := 2, burstTime := 8, remainingTime := 8,
         currentLevel := 0, completionTime := none, enqueued := false }],
    currentTime := 0,
    jobsFinished := 0,
    queues := [[0]],
    executionTimeline := tl }

theorem c2Aux_loop (fuel : Nat) :
    ∀ tl, mlfqLoop [0] fuel (c2AuxState tl) = .outOfFuel := by
  induction fuel with
  | zero => intro tl; rfl
  | succ n ih =>
      intro tl
      exact Eq.trans
        (show mlfqLoop [0] (n + 1) (c2AuxState tl)
            = mlfqLoop [0] n (c2AuxState (tl ++ [⟨0, 0, .job "A" 0⟩])) from rfl)
        (ih (tl ++ [⟨0, 0, .job "A" 0⟩]))

/-- C2: the code contains no configuration validation at all.  With an
empty quantum list it first creates the full simulation state
(`initState`) and then crashes with a runtime `TypeError` inside the
first loop iteration (`queues[0].push` on a missing queue); with the
non-positive quantum list [0] the loop never terminates (every dispatch
has runTime 0), shown here for the source's job set at every fuel. -/
theorem c2_no_config_error :
    runMLFQ inputJobs [] 1 = .crashed ∧
      ∀ fuel : Nat, runMLFQ inputJobs [0] fuel = .outOfFuel := by
  refine ⟨rfl, ?_⟩
  intro fuel
  cases fuel with
  | zero => rfl
  | succ n =>
      show runMLFQ inputJobs [0] (n + 1) = .outOfFuel
      have h1 : mlfqLoop [0] (n + 1) (initState inputJobs [0])
          = mlfqLoop [0] n (c2AuxState [⟨0, 0, .job "A" 0⟩]) := rfl
      unfold runMLFQ
      rw [h1, c2Aux_loop]

/-- C3: a job that reaches the statistics stage with its completion time
still unset does not trigger an internal-consistency failure; the code
logs to `console.error` and silently returns the sentinel `-1` for both
turnaround and waiting time (MLFQ.ts lines 129-139). -/
theorem c3_sentinel_stats :
    computeStats [⟨"X", 0, 5⟩]
        [{ id := "X", arrivalTime := 0, burstTime := 5, remainingTime := 5,
           currentLevel := 0, completionTime := none, enqueued := true }]
      = [⟨"X", -1, -1⟩] := by
  rfl

/-- C8: the simulation is deterministic — two runs on the same Job
Registry and quantum configuration, each building its own fresh tracked
state, produce identical timelines and statistics.  In the embedding
`runMLFQ` is a pure function of the registry, the quanta and the fuel
(the source calls no nondeterministic API inside the loop), so the two
components of `runTwice` coincide. -/
theorem c8_deterministic (inputJobs : List Job) (timeQuantums : List Nat)
    (fuel : Nat) :
    (runTwice inputJobs timeQuantums fuel).1
      = (runTwice inputJobs timeQuantums fuel).2 := by
  rfl

/-! ## Case analysis of one loop iteration -/

/-- The jobs and admitted indices of the admission pass. -/
abbrev admitted (s : MLFQState) : List TrackedJob × List Nat :=
  admitJobs s.currentTime s.jobs

/-- Complete case analysis of a successful `mlfqStep`: either the CPU was
idle for one unit, or a job was dispatched and finished, or a job was
dispatched and re-queued at its demoted level. -/
theorem mlfqStep_elim (Q : List Nat) (s s' : MLFQState)
    (h : mlfqStep Q s = some s') :
    ∃ queues1, pushAll s.queues (admitted s).2 = some queues1 ∧
      ((findNonEmpty queues1 = none ∧
        s' = { s with
                jobs := (admitted s).1
                queues := queues1
                executionTimeline := s.executionTimeline
                  ++ [⟨s.currentTime, s.currentTime + 1, .idle⟩]
                currentTime := s.currentTime + 1 }) ∨
      (∃ lvl i queues2 job quantum,
        findNonEmpty queues1 = some (lvl, i, queues2) ∧
        (admitted s).1[i]? = some job ∧ Q[lvl]? = some quantum ∧
        ((job.remainingTime - min quantum job.remainingTime = 0 ∧
          s' = { jobs := (admitted s).1.set i
                   { job with
                      remainingTime := 0
                      completionTime :=
                        some (s.currentTime + min quantum job.remainingTime) }
                 currentTime := s.currentTime + min quantum job.remainingTime
                 jobsFinished := s.jobsFinished + 1
                 queues := queues2
                 executionTimeline := s.executionTimeline
                   ++ [⟨s.currentTime,
                        s.currentTime + min quantum job.remainingTime,
                        .job job.id lvl⟩] }) ∨
         (job.remainingTime - min quantum job.remainingTime ≠ 0 ∧
          ∃ queues3,
            enqueueAt queues2 (min (job.currentLevel + 1) (Q.length - 1)) i
              = some queues3 ∧
            s' = { jobs := (admitted s).1.set i
                     { job with
                        remainingTime :=
                          job.remainingTime - min quantum job.remainingTime
                        currentLevel :=
                          min (job.currentLevel + 1) (Q.length - 1) }
                   currentTime := s.currentTime + min quantum job.remainingTime
                   jobsFinished := s.jobsFinished
                   queues := queues3
                   executionTimeline := s.executionTimeline
                     ++ [⟨s.currentTime,
                          s.currentTime + min quantum job.remainingTime,
                          .job job.id lvl⟩] })))) := by
  simp only [mlfqStep] at h
  split at h
  · exact absurd h (by simp)
  · rename_i queues1 hpush
    refine ⟨queues1, hpush, ?_⟩
    split at h
    · left
      exact ⟨by assumption, ((Option.some.injEq _ _ ▸ h)).symm⟩
    · rename_i lvl i queues2 hfind
      right
      split at h
      · rename_i job quantum hjob hquantum
        refine ⟨lvl, i, queues2, job, quantum, hfind, hjob, hquantum, ?_⟩
        split at h
        · left
          exact ⟨by assumption, ((Option.some.injEq _ _ ▸ h)).symm⟩
        · split at h
          · exact absurd h (by simp)
          · rename_i queues3 henq
            right
            exact ⟨by assumption, queues3, henq,
              ((Option.some.injEq _ _ ▸ h)).symm⟩
      · exact absurd h (by simp)

/-! ## C6: the timeline partitions [0, final clock] -/

/-- `Partitions a tl b`: the intervals of `tl` are contiguous and
non-overlapping, the first starting at `a`, each one's end equal to the
next one's start, and the last one ending at `b` (`a = b` for `[]`). -/
def Partitions : Nat → List ExecInterval → Nat → Prop
  | a, [], b => a = b
  | a, iv :: tl, b =>
      iv.startTime = a ∧ a ≤ iv.endTime ∧ Partitions iv.endTime tl b

theorem Partitions.snoc {a c : Nat} {tl : List ExecInterval}
    {iv : ExecInterval} (h : Partitions a tl c) (h1 : iv.startTime = c)
    (h2 : c ≤ iv.endTime) :
    Partitions a (tl ++ [iv]) iv.endTime := by
  induction tl generalizing a with
  | nil =>
      have ha : a = c := h
      exact ⟨by rw [h1, ha], by rw [ha]; exact h2, rfl⟩
  | cons jv tl ih =>
      obtain ⟨hs, hle, hp⟩ := h
      exact ⟨hs, hle, ih hp⟩

/-- Total duration of a timeline, idle intervals included. -/
def sumDur (tl : List ExecInterval) : Nat :=
  (tl.map (fun iv => iv.endTime - iv.startTime)).sum

theorem Partitions.le_and_sumDur {a b : Nat} {tl : List ExecInterval}
    (h : Partitions a tl b) : a ≤ b ∧ sumDur tl = b - a := by
  induction tl generalizing a with
  | nil =>
      have ha : a = b := h
      simp [sumDur, ha]
  | cons iv tl ih =>
      obtain ⟨hs, hle, hp⟩ := h
      obtain ⟨hab, hsum⟩ := ih hp
      simp only [sumDur, List.map_cons, List.sum_cons] at hsum ⊢
      omega

/-- One loop iteration preserves the partition shape of the timeline. -/
theorem timeline_step (Q : List Nat) (s s' : MLFQState)
    (h : mlfqStep Q s = some s')
    (ht : Partitions 0 s.executionTimeline s.currentTime) :
    Partitions 0 s'.executionTimeline s'.currentTime := by
  rcases mlfqStep_elim Q s s' h with
    ⟨q1, hp, ⟨hnone, hs'⟩ |
      ⟨lvl, i, q2, job, quantum, hf, hj, hq, ⟨hrem, hs'⟩ | ⟨hrem, q3, he, hs'⟩⟩⟩
  · rw [hs']
    exact Partitions.snoc ht rfl (Nat.le_succ _)
  · rw [hs']
    exact Partitions.snoc ht rfl (Nat.le_add_right _ _)
  · rw [hs']
    exact Partitions.snoc ht rfl (Nat.le_add_right _ _)

/-- The loop preserves the partition shape up to its final state. -/
theorem timeline_loop (Q : List Nat) (fuel : Nat) :
    ∀ s sf, mlfqLoop Q fuel s = .finished sf →
      Partitions 0 s.executionTimeline s.currentTime →
      Partitions 0 sf.executionTimeline sf.currentTime := by
  induction fuel with
  | zero => intro s sf h; simp [mlfqLoop] at h
  | succ n ih =>
      intro s sf h ht
      simp only [mlfqLoop] at h
      split at h
      · split at h
        · exact absurd h (by simp)
        · rename_i s'' hstep
          exact ih s'' sf h (timeline_step Q s s'' hstep ht)
      · cases h
        exact ht

/-- Any terminated run's timeline partitions `[0, final clock]`. -/
theorem timeline_partition_final (J : List Job) (Q : List Nat) (fuel : Nat)
    (sf : MLFQState)
    (hrun : mlfqLoop Q fuel (initState J Q) = .finished sf) :
    Partitions 0 sf.executionTimeline sf.currentTime ∧
      sumDur sf.executionTimeline = sf.currentTime := by
  have h0 : Partitions 0 (initState J Q).executionTimeline
      (initState J Q).currentTime := rfl
  have h := timeline_loop Q fuel _ sf hrun h0
  refine ⟨h, ?_⟩
  have h2 := h.le_and_sumDur
  omega

/-- C6: for every terminated run, the execution timeline is a partition
of `[0, final clock]`: the first interval starts at 0, each interval's
end is the next interval's start, and the total duration (idle included)
equals the final clock value. -/
theorem c6_timeline_partition (J : List Job) (Q : List Nat) (fuel : Nat)
    (sf : MLFQState)
    (hrun : mlfqLoop Q fuel (initState J Q) = .finished sf) :
    Partitions 0 sf.executionTimeline sf.currentTime ∧
      sumDur sf.executionTimeline = sf.currentTime :=
  timeline_partition_final J Q fuel sf hrun

/-- C6 witness: the partition property evaluated on the source's first
test run (quanta [5,10,20] on jobs A, B, C). -/
theorem c6_witness :
    Partitions 0 exampleFinalState.executionTimeline
        exampleFinalState.currentTime ∧
      sumDur exampleFinalState.executionTimeline
        = exampleFinalState.currentTime :=
  c6_timeline_partition inputJobs defaultQuantums 30 exampleFinalState
    (by rfl)

/-! ## Properties of the admission pass -/

/-- What admission does to one tracked job. -/
def admitFun (t : Nat) (j : TrackedJob) : TrackedJob :=
  if !j.enqueued && j.arrivalTime ≤ t then { j with enqueued := true } else j

theorem admitJobs_fst (t : Nat) (l : List TrackedJob) :
    (admitJobs t l).1 = l.map (admitFun t) := by
  induction l with
  | nil => rfl
  | cons j rest ih =>
      simp only [admitJobs, List.map_cons, admitFun]
      split <;> simp [ih]

theorem admitFun_id (t : Nat) (j : TrackedJob) : (admitFun t j).id = j.id := by
  unfold admitFun; split <;> rfl

theorem admitFun_arrivalTime (t : Nat) (j : TrackedJob) :
    (admitFun t j).arrivalTime = j.arrivalTime := by
  unfold admitFun; split <;> rfl

theorem admitFun_burstTime (t : Nat) (j : TrackedJob) :
    (admitFun t j).burstTime = j.burstTime := by
  unfold admitFun; split <;> rfl

theorem admitFun_remainingTime (t : Nat) (j : TrackedJob) :
    (admitFun t j).remainingTime = j.remainingTime := by
  unfold admitFun; split <;> rfl

theorem admitFun_currentLevel (t : Nat) (j : TrackedJob) :
    (admitFun t j).currentLevel = j.currentLevel := by
  unfold admitFun; split <;> rfl

theorem admitFun_completionTime (t : Nat) (j : TrackedJob) :
    (admitFun t j).completionTime = j.completionTime := by
  unfold admitFun; split <;> rfl

/-- Admission flips `enqueued` exactly on the due jobs. -/
theorem admitFun_enqueued (t : Nat) (j : TrackedJob) :
    (admitFun t j).enqueued = (j.enqueued || decide (j.arrivalTime ≤ t)) := by
  unfold admitFun
  split
  · rename_i hc
    simp only [Bool.and_eq_true, Bool.not_eq_true', decide_eq_true_eq] at hc
    simp [hc.1, hc.2]
  · rename_i hc
    simp only [Bool.and_eq_true, Bool.not_eq_true', decide_eq_true_eq,
      not_and, Bool.not_eq_false] at hc
    by_cases he : j.enqueued
    · simp [he]
    · simp only [Bool.not_eq_true] at he
      simp [he, hc]

/-- The indices returned by admission are exactly those of the jobs that
were not yet enqueued and have arrived. -/
theorem admitJobs_snd_mem (t : Nat) (l : List TrackedJob) (i : Nat) :
    i ∈ (admitJobs t l).2 ↔
      ∃ j, l[i]? = some j ∧ j.enqueued = false ∧ j.arrivalTime ≤ t := by
  induction l generalizing i with
  | nil => simp [admitJobs]
  | cons j rest ih =>
      simp only [admitJobs]
      split
      · rename_i hc
        simp only [Bool.and_eq_true, Bool.not_eq_true', decide_eq_true_eq] at hc
        cases i with
        | zero => simp [hc.1, hc.2]
        | succ k =>
            simp only [List.mem_cons, Nat.succ_ne_zero, false_or,
              List.mem_map, List.getElem?_cons_succ]
            constructor
            · rintro ⟨a, ha, hak⟩
              have : a = k := by omega
              exact (ih k).1 (this ▸ ha)
            · intro hk
              exact ⟨k, (ih k).2 hk, rfl⟩
      · rename_i hc
        cases i with
        | zero =>
            simp only [List.mem_map, List.getElem?_cons_zero, Option.some.injEq]
            constructor
            · rintro ⟨a, _, hak⟩; omega
            · rintro ⟨j', hj', he, ha⟩
              subst hj'
              simp only [Bool.and_eq_true, Bool.not_eq_true',
                decide_eq_true_eq, not_and] at hc
              exact (hc he ha).elim
        | succ k =>
            simp only [List.mem_map, List.getElem?_cons_succ]
            constructor
            · rintro ⟨a, ha, hak⟩
              have : a = k := by omega
              exact (ih k).1 (this ▸ ha)
            · intro hk
              exact ⟨k, (ih k).2 hk, rfl⟩

theorem admitJobs_snd_nodup (t : Nat) (l : List TrackedJob) :
    (admitJobs t l).2.Nodup := by
  induction l with
  | nil => simp [admitJobs]
  | cons j rest ih =>
      simp only [admitJobs]
      split
      · refine List.Nodup.cons ?_ (ih.map (fun a b h => by omega))
        simp only [List.mem_map]
        rintro ⟨a, _, ha⟩
        omega
      · exact ih.map (fun a b h => by omega)

theorem admitJobs_snd_lt (t : Nat) (l : List TrackedJob) :
    ∀ i ∈ (admitJobs t l).2, i < l.length := by
  intro i hi
  obtain ⟨j, hj, -⟩ := (admitJobs_snd_mem t l i).1 hi
  by_contra hlt
  rw [List.getElem?_eq_none (by omega)] at hj
  exact Option.noConfusion hj

/-! ## C7: priority levels never decrease and are capped at maxLevel -/

theorem admitted_fst_getElem (s : MLFQState) (i : Nat) :
    (admitted s).1[i]? = (s.jobs[i]?).map (admitFun s.currentTime) := by
  rw [admitJobs_fst]
  exact List.getElem?_map _ _ _

/-- All current levels are at most `maxLevel = Q.length - 1`. -/
def LevelsLe (Q : List Nat) (s : MLFQState) : Prop :=
  ∀ t ∈ s.jobs, t.currentLevel ≤ Q.length - 1

instance (Q : List Nat) (s : MLFQState) : Decidable (LevelsLe Q s) :=
  List.decidableBAll _ _

theorem levelsLe_admitted (Q : List Nat) (s : MLFQState) (h : LevelsLe Q s) :
    ∀ t ∈ (admitted s).1, t.currentLevel ≤ Q.length - 1 := by
  intro t ht
  rw [admitJobs_fst] at ht
  obtain ⟨u, hu, rfl⟩ := List.mem_map.1 ht
  rw [admitFun_currentLevel]
  exact h u hu

/-- C7: in every run each job starts at level 0, levels stay within
`[0, maxLevel]`, one iteration never decreases a job's level and raises
it by at most one, capped at `maxLevel` (so a job at `maxLevel` stays
there and no job is ever promoted to a lower-index level), and a
dispatched job that does not finish is re-queued at exactly
`min(previous level + 1, maxLevel)`: its level field is set to that
value and it is appended to the tail of that level's queue. -/
theorem c7_levels (J : List Job) (Q : List Nat) :
    (∀ t ∈ (initState J Q).jobs, t.currentLevel = 0) ∧
    LevelsLe Q (initState J Q) ∧
    (∀ s s', LevelsLe Q s → mlfqStep Q s = some s' →
      LevelsLe Q s' ∧
      ∀ (i : Nat) (t t' : TrackedJob),
        s.jobs[i]? = some t → s'.jobs[i]? = some t' →
        t.currentLevel ≤ t'.currentLevel ∧
        t'.currentLevel ≤ min (t.currentLevel + 1) (Q.length - 1)) ∧
    (∀ (s s' : MLFQState) (queues1 : List (List Nat)) (lvl i : Nat)
        (q2 : List (List Nat)) (job : TrackedJob) (quantum : Nat),
      mlfqStep Q s = some s' →
      pushAll s.queues (admitted s).2 = some queues1 →
      findNonEmpty queues1 = some (lvl, i, q2) →
      (admitted s).1[i]? = some job →
      Q[lvl]? = some quantum →
      job.remainingTime - min quantum job.remainingTime ≠ 0 →
      ∃ q, q2[min (job.currentLevel + 1) (Q.length - 1)]? = some q ∧
        s'.queues
          = q2.set (min (job.currentLevel + 1) (Q.length - 1)) (q ++ [i]) ∧
        ∃ job', s'.jobs[i]? = some job' ∧
          job'.currentLevel = min (job.currentLevel + 1) (Q.length - 1) ∧
          job'.remainingTime
            = job.remainingTime - min quantum job.remainingTime) := by
  refine ⟨?_, ?_, ?_, ?_⟩
  · intro t ht
    simp only [initState, List.mem_map] at ht
    obtain ⟨j, -, rfl⟩ := ht
    rfl
  · intro t ht
    simp only [initState, List.mem_map] at ht
    obtain ⟨j, -, rfl⟩ := ht
    exact Nat.zero_le _
  · intro s s' hLe hstep
    have hmono : ∀ (i : Nat) (t t' : TrackedJob), s.jobs[i]? = some t →
        (admitted s).1[i]? = some t' →
        t'.currentLevel = t.currentLevel := by
      intro i t t' hti hti'
      rw [admitted_fst_getElem, hti] at hti'
      cases hti'
      exact admitFun_currentLevel _ _
    rcases mlfqStep_elim Q s s' hstep with
      ⟨q1, hp, ⟨hnone, hs'⟩ |
        ⟨lvl, i, q2, job, quantum, hf, hj, hq, ⟨hrem, hs'⟩ | ⟨hrem, q3, he, hs'⟩⟩⟩
    -- idle
    · subst hs'
      refine ⟨levelsLe_admitted Q s hLe, ?_⟩
      intro ii t t' hti hti'
      have ht'lvl : t'.currentLevel = t.currentLevel := hmono ii t t' hti hti'
      have htmax : t.currentLevel ≤ Q.length - 1 :=
        hLe t (List.getElem?_mem hti)
      rw [ht'lvl]
      exact ⟨Nat.le_refl _, Nat.le_min.2 ⟨Nat.le_succ _, htmax⟩⟩
    -- dispatch, job finished: its level is unchanged
    · obtain ⟨u, hu, rfl⟩ : ∃ u, s.jobs[i]? = some u ∧ job = admitFun s.currentTime u := by
        rw [admitted_fst_getElem] at hj
        cases hju : s.jobs[i]? with
        | none => rw [hju] at hj; exact Option.noConfusion hj
        | some u => rw [hju] at hj; exact ⟨u, rfl, (Option.some.injEq _ _ ▸ hj).symm⟩
      have hilen : i < (admitted s).1.length := by
        rw [admitJobs_fst, List.length_map]
        exact (List.getElem?_eq_some_iff.1 hu).1
      subst hs'
      constructor
      · intro t' ht'
        rcases List.mem_or_eq_of_mem_set ht' with h1 | h1
        · exact levelsLe_admitted Q s hLe t' h1
        · subst h1
          show (admitFun s.currentTime u).currentLevel ≤ Q.length - 1
          rw [admitFun_currentLevel]
          exact hLe u (List.getElem?_mem hu)
      · intro ii t t' hti hti'
        by_cases hii : ii = i
        · subst hii
          rw [List.getElem?_set_self (by rwa [admitJobs_fst, List.length_map] at hilen ⊢)] at hti'
          cases hti'
          have ht : t = u := by rw [hti] at hu; exact (Option.some.injEq _ _ ▸ hu)
          subst ht
          have : (admitFun s.currentTime t).currentLevel = t.currentLevel :=
            admitFun_currentLevel _ _
          simp only [this]
          exact ⟨Nat.le_refl _,
            Nat.le_min.2 ⟨Nat.le_succ _, hLe t (List.getElem?_mem hti)⟩⟩
        · rw [List.getElem?_set_ne (fun h => hii h.symm)] at hti'
          have ht'lvl : t'.currentLevel = t.currentLevel := hmono ii t t' hti hti'
          rw [ht'lvl]
          exact ⟨Nat.le_refl _,
            Nat.le_min.2 ⟨Nat.le_succ _, hLe t (List.getElem?_mem hti)⟩⟩
    -- dispatch, job demoted to min (level+1) maxLevel
    · obtain ⟨u, hu, rfl⟩ : ∃ u, s.jobs[i]? = some u ∧ job = admitFun s.currentTime u := by
        rw [admitted_fst_getElem] at hj
        cases hju : s.jobs[i]? with
        | none => rw [hju] at hj; exact Option.noConfusion hj
        | some u => rw [hju] at hj; exact ⟨u, rfl, (Option.some.injEq _ _ ▸ hj).symm⟩
      have hilen : i < (admitted s).1.length := by
        rw [admitJobs_fst, List.length_map]
        exact (List.getElem?_eq_some_iff.1 hu).1
      subst hs'
      constructor
      · intro t' ht'
        rcases List.mem_or_eq_of_mem_set ht' with h1 | h1
        · exact levelsLe_admitted Q s hLe t' h1
        · subst h1
          exact Nat.min_le_right _ _
      · intro ii t t' hti hti'
        by_cases hii : ii = i
        · subst hii
          rw [List.getElem?_set_self hilen] at hti'
          cases hti'
          have ht : t = u := by rw [hti] at hu; exact (Option.some.injEq _ _ ▸ hu)
          subst ht
          have hfl : (admitFun s.currentTime t).currentLevel = t.currentLevel :=
            admitFun_currentLevel _ _
          simp only [hfl]
          have htmax : t.currentLevel ≤ Q.length - 1 :=
            hLe t (List.getElem?_mem hti)
          exact ⟨Nat.le_min.2 ⟨Nat.le_succ _, htmax⟩, Nat.le_refl _⟩
        · rw [List.getElem?_set_ne (fun h => hii h.symm)] at hti'
          have ht'lvl : t'.currentLevel = t.currentLevel := hmono ii t t' hti hti'
          rw [ht'lvl]
          exact ⟨Nat.le_refl _,
            Nat.le_min.2 ⟨Nat.le_succ _, hLe t (List.getElem?_mem hti)⟩⟩
  · intro s s' queues1 lvl i q2 job quantum hstep hp hfind hjob hquantum hremne
    rcases mlfqStep_elim Q s s' hstep with
      ⟨q1, hp0, ⟨hnone, hs'⟩ |
        ⟨lvl0, i0, q20, job0, quantum0, hf0, hj0, hq0,
          ⟨hrem0, hs'⟩ | ⟨hrem0, q3, he, hs'⟩⟩⟩
    -- idle iteration: contradicts the dispatch hypothesis
    · rw [hp0] at hp
      cases hp
      rw [hnone] at hfind
      exact Option.noConfusion hfind
    -- the job finished: contradicts the unfinished hypothesis
    · rw [hp0] at hp
      cases hp
      rw [hf0] at hfind
      simp only [Option.some.injEq, Prod.mk.injEq] at hfind
      obtain ⟨h1, h2, h3⟩ := hfind
      subst h1
      subst h2
      subst h3
      rw [hj0] at hjob
      cases hjob
      rw [hq0] at hquantum
      cases hquantum
      exact absurd hrem0 hremne
    -- the requeue branch: read the exact demotion off the step
    · rw [hp0] at hp
      cases hp
      rw [hf0] at hfind
      simp only [Option.some.injEq, Prod.mk.injEq] at hfind
      obtain ⟨h1, h2, h3⟩ := hfind
      subst h1
      subst h2
      subst h3
      rw [hj0] at hjob
      cases hjob
      rw [hq0] at hquantum
      cases hquantum
      have hilen : i0 < (admitted s).1.length :=
        (List.getElem?_eq_some_iff.1 hj0).1
      unfold enqueueAt at he
      cases hq2nl : q20[min (job.currentLevel + 1) (Q.length - 1)]? with
      | none =>
          rw [hq2nl] at he
          exact Option.noConfusion he
      | some q =>
          rw [hq2nl] at he
          cases he
          subst hs'
          refine ⟨q, rfl, rfl, ?_⟩
          refine ⟨{ job with
              remainingTime :=
                job.remainingTime - min quantum job.remainingTime
              currentLevel :=
                min (job.currentLevel + 1) (Q.length - 1) }, ?_, rfl, rfl⟩
          dsimp only
          rw [List.getElem?_set_self hilen]

/-- The state after the first iteration of the source's first test:
A admitted and dispatched at level 0 for 5 units, demoted to level 1. -/
def firstStepState : MLFQState :=
  { jobs :=
      [{ id := "A", arrivalTime := 0, burstTime := 10, remainingTime := 5,
         currentLevel := 1, completionTime := none, enqueued := true },
       { id := "B", arrivalTime := 1, burstTime := 5, remainingTime := 5,
         currentLevel := 0, completionTime := none, enqueued := false },
       { id := "C", arrivalTime := 2, burstTime := 8, remainingTime := 8,
         currentLevel := 0, completionTime := none, enqueued := false }],
    currentTime := 5,
    jobsFinished := 0,
    queues := [[], [0], []],
    executionTimeline := [⟨0, 5, .job "A" 0⟩] }

/-- C7 witness: on the first iteration of the source's first test the
level-monotonicity bracket holds for job A, and the unfinished job A
(level 0, remaining 10, quantum 5) is re-queued at exactly
min(0 + 1, maxLevel) = 1 at the tail of queue 1 with its level field
set to 1 and remaining time 5. -/
theorem c7_witness :
    ((toTracked ⟨"A", 0, 10⟩).currentLevel
        ≤ ({ id := "A", arrivalTime := 0, burstTime := 10, remainingTime := 5,
             currentLevel := 1, completionTime := none,
             enqueued := true } : TrackedJob).currentLevel ∧
      ({ id := "A", arrivalTime := 0, burstTime := 10, remainingTime := 5,
         currentLevel := 1, completionTime := none,
         enqueued := true } : TrackedJob).currentLevel
        ≤ min ((toTracked ⟨"A", 0, 10⟩).currentLevel + 1)
            (defaultQuantums.length - 1)) ∧
    ∃ q, (([[], [], []] : List (List Nat)))[1]? = some q ∧
      firstStepState.queues
        = ([[], [], []] : List (List Nat)).set 1 (q ++ [0]) ∧
      ∃ job', firstStepState.jobs[0]? = some job' ∧
        job'.currentLevel = 1 ∧ job'.remainingTime = 5 :=
  ⟨((c7_levels inputJobs defaultQuantums).2.2.1
      (initState inputJobs defaultQuantums) firstStepState
      (by decide) (by rfl)).2 0 _ _ (by rfl) (by rfl),
    (c7_levels inputJobs defaultQuantums).2.2.2
      (initState inputJobs defaultQuantums) firstStepState
      [[0], [], []] 0 0 [[], [], []]
      { id := "A", arrivalTime := 0, burstTime := 10, remainingTime := 10,
        currentLevel := 0, completionTime := none, enqueued := true }
      5 (by rfl) (by rfl) (by rfl) (by rfl) (by rfl) (by decide)⟩

/-! ## Auxiliary list lemmas for the state invariant -/

theorem set_getElem?_same {α : Type} {l : List α} {i : Nat} {a : α}
    (h : l[i]? = some a) : l.set i a = l := by
  induction l generalizing i with
  | nil => simp at h
  | cons x xs ih =>
      cases i with
      | zero => simp at h; simp [h]
      | succ k => simp at h ⊢; exact ih h

theorem countP_set_add {α : Type} (p : α → Bool) {l : List α} {i : Nat}
    {x : α} (y : α) (h : l[i]? = some x) :
    (l.set i y).countP p + (if p x then 1 else 0)
      = l.countP p + (if p y then 1 else 0) := by
  induction l generalizing i with
  | nil => simp at h
  | cons a as ih =>
      cases i with
      | zero =>
          simp only [List.getElem?_cons_zero, Option.some.injEq] at h
          subst h
          simp only [List.set_cons_zero, List.countP_cons]
          omega
      | succ k =>
          simp only [List.getElem?_cons_succ] at h
          simp only [List.set_cons_succ, List.countP_cons]
          have := ih h
          omega

theorem summap_set_add {α : Type} (f : α → Nat) {l : List α} {i : Nat}
    {x : α} (y : α) (h : l[i]? = some x) :
    ((l.set i y).map f).sum + f x = (l.map f).sum + f y := by
  induction l generalizing i with
  | nil => simp at h
  | cons a as ih =>
      cases i with
      | zero =>
          simp only [List.getElem?_cons_zero, Option.some.injEq] at h
          subst h
          simp only [List.set_cons_zero, List.map_cons, List.sum_cons]
          omega
      | succ k =>
          simp only [List.getElem?_cons_succ] at h
          simp only [List.set_cons_succ, List.map_cons, List.sum_cons]
          have := ih h
          omega

theorem pushAll_some {qs : List (List Nat)} {idxs : List Nat}
    {qs1 : List (List Nat)} (h : pushAll qs idxs = some qs1) :
    qs1.length = qs.length ∧
      ∀ a, qs1.flatten.count a = qs.flatten.count a + idxs.count a := by
  cases qs with
  | nil =>
      unfold pushAll at h
      by_cases hemp : idxs.isEmpty
      · rw [if_pos hemp] at h
        cases h
        refine ⟨rfl, fun a => ?_⟩
        rw [List.isEmpty_iff.1 hemp]
        simp
      · rw [if_neg hemp] at h
        exact Option.noConfusion h
  | cons q0 rest =>
      unfold pushAll at h
      cases h
      refine ⟨rfl, fun a => ?_⟩
      simp only [List.flatten_cons, List.count_append]
      omega

theorem findNonEmpty_none {qs : List (List Nat)}
    (h : findNonEmpty qs = none) : qs.flatten = [] := by
  induction qs with
  | nil => rfl
  | cons q rest ih =>
      match q, h with
      | [], h =>
          simp only [List.flatten_cons, List.nil_append]
          unfold findNonEmpty at h
          cases hr : findNonEmpty rest with
          | none => exact ih hr
          | some v =>
              rw [hr] at h
              obtain ⟨lvl, i, rest'⟩ := v
              exact Option.noConfusion h
      | i :: qtail, h =>
          unfold findNonEmpty at h
          exact Option.noConfusion h

theorem findNonEmpty_some {qs qs2 : List (List Nat)} {lvl i : Nat}
    (h : findNonEmpty qs = some (lvl, i, qs2)) :
    qs2.length = qs.length ∧ lvl < qs.length ∧
      qs.flatten = i :: qs2.flatten := by
  induction qs generalizing lvl qs2 with
  | nil => exact Option.noConfusion h
  | cons q rest ih =>
      match q, h with
      | [], h =>
          unfold findNonEmpty at h
          cases hr : findNonEmpty rest with
          | none => rw [hr] at h; exact Option.noConfusion h
          | some v =>
              obtain ⟨lvl', i', rest'⟩ := v
              rw [hr] at h
              simp only [Option.some.injEq, Prod.mk.injEq] at h
              obtain ⟨hlvl, hi, hq2⟩ := h
              subst hi
              subst hq2
              subst hlvl
              obtain ⟨hlen, hlt, hflat⟩ := ih hr
              refine ⟨by simp [hlen], ?_, by simpa using hflat⟩
              simp only [List.length_cons]
              omega
      | j :: qtail, h =>
          unfold findNonEmpty at h
          simp only [Option.some.injEq, Prod.mk.injEq] at h
          obtain ⟨hlvl, hi, hq2⟩ := h
          subst hi
          subst hq2
          subst hlvl
          refine ⟨rfl, ?_, by simp⟩
          simp only [List.length_cons]
          omega

theorem flatten_set_count {qs : List (List Nat)} {n : Nat} {q : List Nat}
    (q' : List Nat) (h : qs[n]? = some q) :
    ∀ a, (qs.set n q').flatten.count a + q.count a
      = qs.flatten.count a + q'.count a := by
  induction qs generalizing n with
  | nil => simp at h
  | cons x rest ih =>
      intro a
      cases n with
      | zero =>
          simp only [List.getElem?_cons_zero, Option.some.injEq] at h
          subst h
          simp [List.count_append]
          omega
      | succ k =>
          simp only [List.getElem?_cons_succ] at h
          simp only [List.set_cons_succ, List.flatten_cons, List.count_append]
          have := ih h a
          omega

theorem enqueueAt_some {qs qs3 : List (List Nat)} {lvl i : Nat}
    (h : enqueueAt qs lvl i = some qs3) :
    qs3.length = qs.length ∧
      ∀ a, qs3.flatten.count a
        = qs.flatten.count a + (if a = i then 1 else 0) := by
  unfold enqueueAt at h
  cases hq : qs[lvl]? with
  | none => rw [hq] at h; exact Option.noConfusion h
  | some q =>
      rw [hq] at h
      cases h
      refine ⟨by simp, fun a => ?_⟩
      have := flatten_set_count (q ++ [i]) hq a
      simp only [List.count_append] at this
      have hone : (List.count a [i]) = if a = i then 1 else 0 := by
        by_cases hai : a = i
        · subst hai
          simp [List.count_cons]
        · rw [if_neg hai, List.count_eq_zero]
          simp [hai]
      omega

theorem enqueueAt_isSome {qs : List (List Nat)} {lvl : Nat} (i : Nat)
    (h : lvl < qs.length) : ∃ qs3, enqueueAt qs lvl i = some qs3 := by
  unfold enqueueAt
  cases hq : qs[lvl]? with
  | none =>
      rw [List.getElem?_eq_none_iff] at hq
      omega
  | some q => exact ⟨_, rfl⟩

/-! ## The run invariant -/

/-- Total remaining time over a tracked job list. -/
def sumRemaining (l : List TrackedJob) : Nat :=
  (l.map TrackedJob.remainingTime).sum

/-- Total burst time over a tracked job list. -/
def sumBurst (l : List TrackedJob) : Nat :=
  (l.map TrackedJob.burstTime).sum

/-- Total duration of the non-idle intervals of a timeline. -/
def sumNonIdle (tl : List ExecInterval) : Nat :=
  ((tl.filter (fun iv => iv.label != .idle)).map
    (fun iv => iv.endTime - iv.startTime)).sum

/-- Number of idle intervals of a timeline. -/
def idleCount (tl : List ExecInterval) : Nat :=
  (tl.filter (fun iv => iv.label == .idle)).length

/-- The invariant maintained by the scheduling loop, for input registry
`J` and quanta `Q`.  Queues hold indices of enqueued, unfinished jobs,
each exactly once; the finished counter counts the jobs whose remaining
time reached 0; every enqueued job arrived before now and has executed
for at most the time elapsed since its arrival; completion times are
final and consistent; the non-idle timeline accounts for all executed
time. -/
structure SchedInv (J : List Job) (Q : List Nat) (s : MLFQState) : Prop where
  len_eq : s.jobs.length = J.length
  queues_len : s.queues.length = Q.length
  statics : ∀ (i : Nat) (t : TrackedJob), s.jobs[i]? = some t →
    ∃ j, J[i]? = some j ∧ t.id = j.id ∧ t.arrivalTime = j.arrivalTime ∧
      t.burstTime = j.burstTime
  burst_pos : ∀ t ∈ s.jobs, 0 < t.burstTime
  queued_lt : ∀ i ∈ s.queues.flatten, i < s.jobs.length
  queued_state : ∀ i ∈ s.queues.flatten, ∀ (t : TrackedJob),
    s.jobs[i]? = some t → t.enqueued = true ∧ 0 < t.remainingTime
  enq_queued : ∀ (i : Nat) (t : TrackedJob), s.jobs[i]? = some t →
    t.enqueued = true → 0 < t.remainingTime → i ∈ s.queues.flatten
  nodup : s.queues.flatten.Nodup
  not_enq : ∀ (i : Nat) (t : TrackedJob), s.jobs[i]? = some t →
    t.enqueued = false → t.remainingTime = t.burstTime
  completion_iff : ∀ (i : Nat) (t : TrackedJob), s.jobs[i]? = some t →
    (t.remainingTime = 0 ↔ t.completionTime.isSome)
  finished_count : s.jobsFinished = s.jobs.countP (fun t => t.remainingTime == 0)
  timing : ∀ (i : Nat) (t : TrackedJob), s.jobs[i]? = some t →
    t.enqueued = true →
    t.arrivalTime ≤ s.currentTime ∧
    t.arrivalTime + t.burstTime ≤ s.currentTime + t.remainingTime
  completion_le : ∀ (i : Nat) (t : TrackedJob) (c : Nat), s.jobs[i]? = some t →
    t.completionTime = some c →
    t.arrivalTime + t.burstTime ≤ c ∧ c ≤ s.currentTime
  work : sumNonIdle s.executionTimeline + sumRemaining s.jobs = sumBurst s.jobs
  idle_unit : ∀ iv ∈ s.executionTimeline, iv.label = .idle →
    iv.endTime = iv.startTime + 1

/-- The invariant holds at the initial state (positive burst times are
the Job data-model invariant of the spec). -/
theorem inv_init (J : List Job) (Q : List Nat)
    (hJ : ∀ j ∈ J, 0 < j.burstTime) : SchedInv J Q (initState J Q) := by
  have hget : ∀ (i : Nat) (t : TrackedJob),
      (initState J Q).jobs[i]? = some t →
      ∃ j, J[i]? = some j ∧ t = toTracked j := by
    intro i t h
    simp only [initState, List.getElem?_map] at h
    cases hj : J[i]? with
    | none => rw [hj] at h; exact Option.noConfusion h
    | some j =>
        rw [hj] at h
        exact ⟨j, rfl, (Option.some.injEq _ _ ▸ h).symm⟩
  have hflat : (initState J Q).queues.flatten = [] := by
    simp only [initState, List.flatten_eq_nil_iff, List.mem_map]
    rintro l ⟨q, -, rfl⟩
    rfl
  constructor
  · simp [initState]
  · simp [initState]
  · intro i t h
    obtain ⟨j, hj, rfl⟩ := hget i t h
    exact ⟨j, hj, rfl, rfl, rfl⟩
  · intro t ht
    simp only [initState, List.mem_map] at ht
    obtain ⟨j, hj, rfl⟩ := ht
    exact hJ j hj
  · rw [hflat]; intro i h; exact absurd h (List.not_mem_nil i)
  · rw [hflat]; intro i h; exact absurd h (List.not_mem_nil i)
  · intro i t h he hr
    obtain ⟨j, -, rfl⟩ := hget i t h
    exact absurd he (by simp [toTracked])
  · rw [hflat]; exact List.nodup_nil
  · intro i t h _
    obtain ⟨j, -, rfl⟩ := hget i t h
    rfl
  · intro i t h
    obtain ⟨j, hj, rfl⟩ := hget i t h
    constructor
    · intro hr
      exact absurd hr (by
        have := hJ j (List.getElem?_mem hj)
        simp [toTracked]
        omega)
    · intro hc
      exact absurd hc (by simp [toTracked])
  · simp only [initState]
    rw [eq_comm, List.countP_eq_zero]
    intro t ht
    simp only [List.mem_map] at ht
    obtain ⟨j, hj, rfl⟩ := ht
    have := hJ j hj
    simp [toTracked]
    omega
  · intro i t h he
    obtain ⟨j, -, rfl⟩ := hget i t h
    exact absurd he (by simp [toTracked])
  · intro i t c h hc
    obtain ⟨j, -, rfl⟩ := hget i t h
    exact absurd hc (by simp [toTracked])
  · simp only [initState, sumNonIdle, sumRemaining, sumBurst]
    simp only [List.filter_nil, List.map_nil, List.sum_nil, Nat.zero_add,
      List.map_map]
    exact congrArg List.sum (List.map_congr_left (fun j _ => rfl))
  · intro iv hiv
    exact absurd hiv (by simp [initState])

theorem getElem?_map_split {α β : Type} {f : α → β} {l : List α} {i : Nat}
    {b : β} (h : (l.map f)[i]? = some b) :
    ∃ a, l[i]? = some a ∧ b = f a := by
  rw [List.getElem?_map] at h
  cases ha : l[i]? with
  | none => rw [ha] at h; exact Option.noConfusion h
  | some a => rw [ha] at h; exact ⟨a, rfl, (Option.some.injEq _ _ ▸ h).symm⟩

/-- The admission pass plus the pushes to queue 0 preserve the invariant. -/
theorem admit_inv (J : List Job) (Q : List Nat) (s : MLFQState)
    (hInv : SchedInv J Q s) {queues1 : List (List Nat)}
    (hp : pushAll s.queues (admitted s).2 = some queues1) :
    SchedInv J Q { s with jobs := (admitted s).1, queues := queues1 } := by
  obtain ⟨hlen1, hcount⟩ := pushAll_some hp
  have hsplit : ∀ (i : Nat) (t : TrackedJob), (admitted s).1[i]? = some t →
      ∃ u, s.jobs[i]? = some u ∧ t = admitFun s.currentTime u := by
    intro i t h
    rw [admitJobs_fst] at h
    exact getElem?_map_split h
  have hmem : ∀ a, a ∈ queues1.flatten ↔
      a ∈ s.queues.flatten ∨ a ∈ (admitted s).2 := by
    intro a
    rw [← List.count_pos_iff, ← List.count_pos_iff, ← List.count_pos_iff,
      hcount]
    omega
  have hadm : ∀ i, i ∈ (admitted s).2 ↔
      ∃ j, s.jobs[i]? = some j ∧ j.enqueued = false ∧
        j.arrivalTime ≤ s.currentTime :=
    admitJobs_snd_mem s.currentTime s.jobs
  have hlen_jobs : (admitted s).1.length = s.jobs.length := by
    rw [admitJobs_fst, List.length_map]
  constructor
  · show (admitted s).1.length = J.length
    rw [hlen_jobs, hInv.len_eq]
  · show queues1.length = Q.length
    rw [hlen1, hInv.queues_len]
  · show ∀ (i : Nat) (t : TrackedJob), (admitted s).1[i]? = some t → _
    intro i t h
    obtain ⟨u, hu, rfl⟩ := hsplit i t h
    obtain ⟨j, hj, h1, h2, h3⟩ := hInv.statics i u hu
    exact ⟨j, hj, by rw [admitFun_id, h1], by rw [admitFun_arrivalTime, h2],
      by rw [admitFun_burstTime, h3]⟩
  · show ∀ t ∈ (admitted s).1, 0 < t.burstTime
    intro t ht
    rw [admitJobs_fst] at ht
    obtain ⟨u, hu, rfl⟩ := List.mem_map.1 ht
    rw [admitFun_burstTime]
    exact hInv.burst_pos u hu
  · show ∀ i ∈ queues1.flatten, i < (admitted s).1.length
    intro i hi
    rw [hlen_jobs]
    rcases (hmem i).1 hi with h1 | h1
    · exact hInv.queued_lt i h1
    · exact admitJobs_snd_lt s.currentTime s.jobs i h1
  · show ∀ i ∈ queues1.flatten, ∀ (t : TrackedJob),
      (admitted s).1[i]? = some t → t.enqueued = true ∧ 0 < t.remainingTime
    intro i hi t h
    obtain ⟨u, hu, rfl⟩ := hsplit i t h
    rcases (hmem i).1 hi with h1 | h1
    · obtain ⟨he, hr⟩ := hInv.queued_state i h1 u hu
      refine ⟨?_, by rwa [admitFun_remainingTime]⟩
      rw [admitFun_enqueued, he, Bool.true_or]
    · obtain ⟨u', hu', he', ha'⟩ := (hadm i).1 h1
      have huu : u' = u := by
        rw [hu] at hu'
        exact (Option.some.injEq _ _ ▸ hu').symm
      subst huu
      refine ⟨?_, ?_⟩
      · rw [admitFun_enqueued, he', Bool.false_or, decide_eq_true ha']
      · rw [admitFun_remainingTime, hInv.not_enq i u' hu he']
        exact hInv.burst_pos u' (List.getElem?_mem hu)
  · show ∀ (i : Nat) (t : TrackedJob), (admitted s).1[i]? = some t →
      t.enqueued = true → 0 < t.remainingTime → i ∈ queues1.flatten
    intro i t h henq hrem
    obtain ⟨u, hu, rfl⟩ := hsplit i t h
    rw [admitFun_remainingTime] at hrem
    rw [admitFun_enqueued] at henq
    rw [hmem i]
    cases hue : u.enqueued with
    | true => exact Or.inl (hInv.enq_queued i u hu hue hrem)
    | false =>
        rw [hue, Bool.false_or, decide_eq_true_eq] at henq
        exact Or.inr ((hadm i).2 ⟨u, hu, hue, henq⟩)
  · show queues1.flatten.Nodup
    rw [List.nodup_iff_count_le_one]
    intro a
    rw [hcount]
    by_cases hold : 0 < s.queues.flatten.count a
    · have hmema : a ∈ s.queues.flatten := List.count_pos_iff.1 hold
      have halt : a < s.jobs.length := hInv.queued_lt a hmema
      obtain ⟨t, ht⟩ : ∃ t, s.jobs[a]? = some t := by
        cases ht : s.jobs[a]? with
        | none => rw [List.getElem?_eq_none_iff] at ht; omega
        | some t => exact ⟨t, rfl⟩
      have henq : t.enqueued = true := (hInv.queued_state a hmema t ht).1
      have hnotadm : a ∉ (admitted s).2 := by
        rw [hadm]
        rintro ⟨j, hj, hje, -⟩
        rw [ht] at hj
        cases hj
        rw [henq] at hje
        exact Bool.noConfusion hje
      rw [List.count_eq_zero.2 hnotadm]
      have := List.nodup_iff_count_le_one.1 hInv.nodup a
      omega
    · have h0 : s.queues.flatten.count a = 0 := by omega
      rw [h0]
      have h1 := List.nodup_iff_count_le_one.1
        (admitJobs_snd_nodup s.currentTime s.jobs) a
      have h2 : (admitted s).2.count a
          = (admitJobs s.currentTime s.jobs).2.count a := rfl
      omega
  · show ∀ (i : Nat) (t : TrackedJob), (admitted s).1[i]? = some t →
      t.enqueued = false → t.remainingTime = t.burstTime
    intro i t h henq
    obtain ⟨u, hu, rfl⟩ := hsplit i t h
    rw [admitFun_enqueued, Bool.or_eq_false_iff] at henq
    rw [admitFun_remainingTime, admitFun_burstTime]
    exact hInv.not_enq i u hu henq.1
  · show ∀ (i : Nat) (t : TrackedJob), (admitted s).1[i]? = some t →
      (t.remainingTime = 0 ↔ t.completionTime.isSome)
    intro i t h
    obtain ⟨u, hu, rfl⟩ := hsplit i t h
    rw [admitFun_remainingTime, admitFun_completionTime]
    exact hInv.completion_iff i u hu
  · show s.jobsFinished = (admitted s).1.countP _
    rw [admitJobs_fst, List.countP_map, hInv.finished_count]
    refine List.countP_congr (fun u _ => ?_)
    have hco : ((fun t => t.remainingTime == 0) ∘ admitFun s.currentTime) u
        = (u.remainingTime == 0) := by
      show ((admitFun s.currentTime u).remainingTime == 0) = _
      rw [admitFun_remainingTime]
    rw [hco]
  · show ∀ (i : Nat) (t : TrackedJob), (admitted s).1[i]? = some t →
      t.enqueued = true → t.arrivalTime ≤ s.currentTime ∧
        t.arrivalTime + t.burstTime ≤ s.currentTime + t.remainingTime
    intro i t h henq
    obtain ⟨u, hu, rfl⟩ := hsplit i t h
    rw [admitFun_enqueued] at henq
    rw [admitFun_arrivalTime, admitFun_burstTime, admitFun_remainingTime]
    cases hue : u.enqueued with
    | true => exact hInv.timing i u hu hue
    | false =>
        rw [hue, Bool.false_or, decide_eq_true_eq] at henq
        have hrb : u.remainingTime = u.burstTime := hInv.not_enq i u hu hue
        rw [hrb]
        omega
  · show ∀ (i : Nat) (t : TrackedJob) (c : Nat), (admitted s).1[i]? = some t →
      t.completionTime = some c →
      t.arrivalTime + t.burstTime ≤ c ∧ c ≤ s.currentTime
    intro i t c h hc
    obtain ⟨u, hu, rfl⟩ := hsplit i t h
    rw [admitFun_completionTime] at hc
    rw [admitFun_arrivalTime, admitFun_burstTime]
    exact hInv.completion_le i u c hu hc
  · show sumNonIdle s.executionTimeline + sumRemaining (admitted s).1
      = sumBurst (admitted s).1
    have hrem : sumRemaining (admitted s).1 = sumRemaining s.jobs := by
      rw [admitJobs_fst, sumRemaining, sumRemaining, List.map_map]
      exact congrArg List.sum
        (List.map_congr_left (fun u _ => admitFun_remainingTime _ _))
    have hbur : sumBurst (admitted s).1 = sumBurst s.jobs := by
      rw [admitJobs_fst, sumBurst, sumBurst, List.map_map]
      exact congrArg List.sum
        (List.map_congr_left (fun u _ => admitFun_burstTime _ _))
    rw [hrem, hbur]
    exact hInv.work
  · exact hInv.idle_unit

/-- An idle iteration preserves the invariant. -/
theorem inv_idle (J : List Job) (Q : List Nat) (u : MLFQState)
    (hInv : SchedInv J Q u) :
    SchedInv J Q { u with
      executionTimeline := u.executionTimeline
        ++ [⟨u.currentTime, u.currentTime + 1, .idle⟩],
      currentTime := u.currentTime + 1 } := by
  constructor
  · exact hInv.len_eq
  · exact hInv.queues_len
  · exact hInv.statics
  · exact hInv.burst_pos
  · exact hInv.queued_lt
  · exact hInv.queued_state
  · exact hInv.enq_queued
  · exact hInv.nodup
  · exact hInv.not_enq
  · exact hInv.completion_iff
  · exact hInv.finished_count
  · intro i t h henq
    obtain ⟨h1, h2⟩ := hInv.timing i t h henq
    show t.arrivalTime ≤ u.currentTime + 1 ∧
      t.arrivalTime + t.burstTime ≤ u.currentTime + 1 + t.remainingTime
    omega
  · intro i t c h hc
    obtain ⟨h1, h2⟩ := hInv.completion_le i t c h hc
    show t.arrivalTime + t.burstTime ≤ c ∧ c ≤ u.currentTime + 1
    omega
  · show sumNonIdle (u.executionTimeline
        ++ [⟨u.currentTime, u.currentTime + 1, .idle⟩])
        + sumRemaining u.jobs = sumBurst u.jobs
    have hn : sumNonIdle (u.executionTimeline
        ++ [⟨u.currentTime, u.currentTime + 1, .idle⟩])
        = sumNonIdle u.executionTimeline := by
      rw [sumNonIdle, sumNonIdle, List.filter_append]
      simp
    rw [hn]
    exact hInv.work
  · intro iv hiv hlab
    rcases List.mem_append.1 hiv with h1 | h1
    · exact hInv.idle_unit iv h1 hlab
    · rw [List.mem_singleton.1 h1]

/-- A dispatch iteration that completes the job preserves the invariant. -/
theorem inv_finish (J : List Job) (Q : List Nat) (u : MLFQState)
    (hInv : SchedInv J Q u) (lvl i : Nat) (q2 : List (List Nat))
    (job : TrackedJob) (quantum : Nat)
    (hf : findNonEmpty u.queues = some (lvl, i, q2))
    (hj : u.jobs[i]? = some job)
    (hrem : job.remainingTime - min quantum job.remainingTime = 0) :
    SchedInv J Q
      { jobs := u.jobs.set i
          { job with
             remainingTime := 0
             completionTime :=
               some (u.currentTime + min quantum job.remainingTime) }
        currentTime := u.currentTime + min quantum job.remainingTime
        jobsFinished := u.jobsFinished + 1
        queues := q2
        executionTimeline := u.executionTimeline
          ++ [⟨u.currentTime, u.currentTime + min quantum job.remainingTime,
               .job job.id lvl⟩] } := by
  obtain ⟨hq2len, hlvl, hflat⟩ := findNonEmpty_some hf
  have himem : i ∈ u.queues.flatten := by rw [hflat]; exact List.mem_cons_self i _
  obtain ⟨henq, hrpos⟩ := hInv.queued_state i himem job hj
  have hrt : min quantum job.remainingTime = job.remainingTime := by
    have := Nat.min_le_right quantum job.remainingTime
    omega
  have hilen : i < u.jobs.length := (List.getElem?_eq_some_iff.1 hj).1
  have hnodup2 : q2.flatten.Nodup ∧ i ∉ q2.flatten := by
    have := hInv.nodup
    rw [hflat] at this
    exact ⟨this.of_cons, (List.nodup_cons.1 this).1⟩
  have htail : ∀ a ∈ q2.flatten, a ∈ u.queues.flatten := by
    intro a ha
    rw [hflat]
    exact List.mem_cons_of_mem i ha
  constructor
  · show (u.jobs.set i _).length = J.length
    rw [List.length_set]
    exact hInv.len_eq
  · show q2.length = Q.length
    rw [hq2len, hInv.queues_len]
  · intro a t h
    by_cases hai : a = i
    · subst hai
      rw [List.getElem?_set_self hilen] at h
      cases h
      obtain ⟨j, hjj, h1, h2, h3⟩ := hInv.statics a job hj
      exact ⟨j, hjj, h1, h2, h3⟩
    · rw [List.getElem?_set_ne (fun hh => hai hh.symm)] at h
      exact hInv.statics a t h
  · intro t ht
    rcases List.mem_or_eq_of_mem_set ht with h1 | h1
    · exact hInv.burst_pos t h1
    · subst h1
      exact hInv.burst_pos job (List.getElem?_mem hj)
  · intro a ha
    show a < (u.jobs.set i _).length
    rw [List.length_set]
    exact hInv.queued_lt a (htail a ha)
  · intro a ha t h
    have hai : a ≠ i := fun hh => hnodup2.2 (hh ▸ ha)
    rw [List.getElem?_set_ne (fun hh => hai hh.symm)] at h
    exact hInv.queued_state a (htail a ha) t h
  · intro a t h henq' hrpos'
    by_cases hai : a = i
    · subst hai
      rw [List.getElem?_set_self hilen] at h
      cases h
      exact absurd hrpos' (by simp)
    · rw [List.getElem?_set_ne (fun hh => hai hh.symm)] at h
      have := hInv.enq_queued a t h henq' hrpos'
      rw [hflat] at this
      rcases List.mem_cons.1 this with h1 | h1
      · exact absurd h1 hai
      · exact h1
  · exact hnodup2.1
  · intro a t h henq'
    by_cases hai : a = i
    · subst hai
      rw [List.getElem?_set_self hilen] at h
      cases h
      exact absurd henq' (by simp [henq])
    · rw [List.getElem?_set_ne (fun hh => hai hh.symm)] at h
      exact hInv.not_enq a t h henq'
  · intro a t h
    by_cases hai : a = i
    · subst hai
      rw [List.getElem?_set_self hilen] at h
      cases h
      simp
    · rw [List.getElem?_set_ne (fun hh => hai hh.symm)] at h
      exact hInv.completion_iff a t h
  · show u.jobsFinished + 1 = (u.jobs.set i _).countP _
    have h1 := countP_set_add (fun t : TrackedJob => t.remainingTime == 0)
      { job with
         remainingTime := 0
         completionTime :=
           some (u.currentTime + min quantum job.remainingTime) } hj
    have hpj : ((fun t : TrackedJob => t.remainingTime == 0) job) = false := by
      simp only [beq_eq_false_iff_ne, ne_eq]
      omega
    have hpj0 : ((fun t : TrackedJob => t.remainingTime == 0)
        { job with
           remainingTime := 0
           completionTime :=
             some (u.currentTime + min quantum job.remainingTime) }) = true := by
      simp
    rw [hpj, hpj0] at h1
    simp only [Bool.false_eq_true, if_false, if_true] at h1
    rw [hInv.finished_count]
    omega
  · intro a t h henq'
    obtain ⟨ht1, ht2⟩ := hInv.timing i job hj henq
    by_cases hai : a = i
    · subst hai
      rw [List.getElem?_set_self hilen] at h
      cases h
      show job.arrivalTime ≤ u.currentTime + min quantum job.remainingTime ∧
        job.arrivalTime + job.burstTime
          ≤ u.currentTime + min quantum job.remainingTime + 0
      omega
    · rw [List.getElem?_set_ne (fun hh => hai hh.symm)] at h
      obtain ⟨h1, h2⟩ := hInv.timing a t h henq'
      constructor
      · show t.arrivalTime ≤ u.currentTime + min quantum job.remainingTime
        omega
      · show t.arrivalTime + t.burstTime
          ≤ u.currentTime + min quantum job.remainingTime + t.remainingTime
        omega
  · intro a t c h hc
    by_cases hai : a = i
    · subst hai
      rw [List.getElem?_set_self hilen] at h
      cases h
      simp only [Option.some.injEq] at hc
      obtain ⟨ht1, ht2⟩ := hInv.timing a job hj henq
      show job.arrivalTime + job.burstTime ≤ c ∧
        c ≤ u.currentTime + min quantum job.remainingTime
      omega
    · rw [List.getElem?_set_ne (fun hh => hai hh.symm)] at h
      obtain ⟨h1, h2⟩ := hInv.completion_le a t c h hc
      constructor
      · exact h1
      · show c ≤ u.currentTime + min quantum job.remainingTime
        omega
  · show sumNonIdle (u.executionTimeline ++ [_]) + sumRemaining (u.jobs.set i _)
      = sumBurst (u.jobs.set i _)
    have hn : sumNonIdle (u.executionTimeline
        ++ [⟨u.currentTime, u.currentTime + min quantum job.remainingTime,
             .job job.id lvl⟩])
        = sumNonIdle u.executionTimeline + min quantum job.remainingTime := by
      rw [sumNonIdle, sumNonIdle, List.filter_append]
      simp
    have hr := summap_set_add TrackedJob.remainingTime
      { job with
         remainingTime := 0
         completionTime :=
           some (u.currentTime + min quantum job.remainingTime) } hj
    have hb := summap_set_add TrackedJob.burstTime
      { job with
         remainingTime := 0
         completionTime :=
           some (u.currentTime + min quantum job.remainingTime) } hj
    have hw := hInv.work
    rw [sumNonIdle] at hw
    simp only [sumRemaining, sumBurst] at hr hb hw ⊢
    rw [hn]
    show sumNonIdle u.executionTimeline + min quantum job.remainingTime + _ = _
    simp only [sumNonIdle] at hn ⊢
    omega
  · intro iv hiv hlab
    rcases List.mem_append.1 hiv with h1 | h1
    · exact hInv.idle_unit iv h1 hlab
    · rw [List.mem_singleton.1 h1] at hlab
      exact absurd hlab (by simp)

/-- A dispatch iteration that re-queues the unfinished job at its demoted
level preserves the invariant. -/
theorem inv_requeue (J : List Job) (Q : List Nat) (u : MLFQState)
    (hInv : SchedInv J Q u) (lvl i : Nat) (q2 q3 : List (List Nat))
    (job : TrackedJob) (quantum : Nat)
    (hf : findNonEmpty u.queues = some (lvl, i, q2))
    (hj : u.jobs[i]? = some job)
    (hremne : job.remainingTime - min quantum job.remainingTime ≠ 0)
    (he : enqueueAt q2 (min (job.currentLevel + 1) (Q.length - 1)) i
      = some q3) :
    SchedInv J Q
      { jobs := u.jobs.set i
          { job with
             remainingTime := job.remainingTime - min quantum job.remainingTime
             currentLevel := min (job.currentLevel + 1) (Q.length - 1) }
        currentTime := u.currentTime + min quantum job.remainingTime
        jobsFinished := u.jobsFinished
        queues := q3
        executionTimeline := u.executionTimeline
          ++ [⟨u.currentTime, u.currentTime + min quantum job.remainingTime,
               .job job.id lvl⟩] } := by
  obtain ⟨hq2len, hlvl, hflat⟩ := findNonEmpty_some hf
  obtain ⟨hq3len, hc3⟩ := enqueueAt_some he
  have himem : i ∈ u.queues.flatten := by rw [hflat]; exact List.mem_cons_self i _
  obtain ⟨henq, hrpos⟩ := hInv.queued_state i himem job hj
  have hrtle : min quantum job.remainingTime ≤ job.remainingTime :=
    Nat.min_le_right _ _
  have hilen : i < u.jobs.length := (List.getElem?_eq_some_iff.1 hj).1
  have hnodup2 : q2.flatten.Nodup ∧ i ∉ q2.flatten := by
    have := hInv.nodup
    rw [hflat] at this
    exact ⟨this.of_cons, (List.nodup_cons.1 this).1⟩
  have htail : ∀ a ∈ q2.flatten, a ∈ u.queues.flatten := by
    intro a ha
    rw [hflat]
    exact List.mem_cons_of_mem i ha
  have hmem3 : ∀ a, a ∈ q3.flatten ↔ a ∈ q2.flatten ∨ a = i := by
    intro a
    rw [← List.count_pos_iff, ← List.count_pos_iff, hc3 a]
    by_cases hai : a = i
    · simp [hai]
    · simp [hai]
  constructor
  · show (u.jobs.set i _).length = J.length
    rw [List.length_set]
    exact hInv.len_eq
  · show q3.length = Q.length
    rw [hq3len, hq2len, hInv.queues_len]
  · intro a t h
    by_cases hai : a = i
    · subst hai
      rw [List.getElem?_set_self hilen] at h
      cases h
      obtain ⟨j, hjj, h1, h2, h3⟩ := hInv.statics a job hj
      exact ⟨j, hjj, h1, h2, h3⟩
    · rw [List.getElem?_set_ne (fun hh => hai hh.symm)] at h
      exact hInv.statics a t h
  · intro t ht
    rcases List.mem_or_eq_of_mem_set ht with h1 | h1
    · exact hInv.burst_pos t h1
    · subst h1
      exact hInv.burst_pos job (List.getElem?_mem hj)
  · intro a ha
    show a < (u.jobs.set i _).length
    rw [List.length_set]
    rcases (hmem3 a).1 ha with h1 | h1
    · exact hInv.queued_lt a (htail a h1)
    · subst h1; exact hilen
  · intro a ha t h
    rcases (hmem3 a).1 ha with h1 | h1
    · have hai : a ≠ i := fun hh => hnodup2.2 (hh ▸ h1)
      rw [List.getElem?_set_ne (fun hh => hai hh.symm)] at h
      exact hInv.queued_state a (htail a h1) t h
    · subst h1
      rw [List.getElem?_set_self hilen] at h
      cases h
      refine ⟨henq, ?_⟩
      show 0 < job.remainingTime - min quantum job.remainingTime
      omega
  · intro a t h henq' hrpos'
    rw [hmem3 a]
    by_cases hai : a = i
    · exact Or.inr hai
    · rw [List.getElem?_set_ne (fun hh => hai hh.symm)] at h
      have := hInv.enq_queued a t h henq' hrpos'
      rw [hflat] at this
      rcases List.mem_cons.1 this with h1 | h1
      · exact absurd h1 hai
      · exact Or.inl h1
  · rw [List.nodup_iff_count_le_one]
    intro a
    rw [hc3 a]
    have h2 := List.nodup_iff_count_le_one.1 hnodup2.1 a
    by_cases hai : a = i
    · subst hai
      rw [List.count_eq_zero.2 hnodup2.2]
      simp
    · simp only [hai, if_false]
      omega
  · intro a t h henq'
    by_cases hai : a = i
    · subst hai
      rw [List.getElem?_set_self hilen] at h
      cases h
      exact absurd henq' (by simp [henq])
    · rw [List.getElem?_set_ne (fun hh => hai hh.symm)] at h
      exact hInv.not_enq a t h henq'
  · intro a t h
    by_cases hai : a = i
    · subst hai
      rw [List.getElem?_set_self hilen] at h
      cases h
      have hiff := hInv.completion_iff a job hj
      constructor
      · intro hh
        exact absurd hh hremne
      · intro hh
        show job.remainingTime - min quantum job.remainingTime = 0
        have : job.remainingTime = 0 := hiff.2 hh
        omega
    · rw [List.getElem?_set_ne (fun hh => hai hh.symm)] at h
      exact hInv.completion_iff a t h
  · show u.jobsFinished = (u.jobs.set i _).countP _
    have h1 := countP_set_add (fun t : TrackedJob => t.remainingTime == 0)
      { job with
         remainingTime := job.remainingTime - min quantum job.remainingTime
         currentLevel := min (job.currentLevel + 1) (Q.length - 1) } hj
    have hpj : ((fun t : TrackedJob => t.remainingTime == 0) job) = false := by
      simp only [beq_eq_false_iff_ne, ne_eq]
      omega
    have hpj' : ((fun t : TrackedJob => t.remainingTime == 0)
        { job with
           remainingTime := job.remainingTime - min quantum job.remainingTime
           currentLevel := min (job.currentLevel + 1) (Q.length - 1) })
        = false := by
      simp only [beq_eq_false_iff_ne, ne_eq]
      exact hremne
    rw [hpj, hpj'] at h1
    simp only [Bool.false_eq_true, if_false] at h1
    rw [hInv.finished_count]
    omega
  · intro a t h henq'
    by_cases hai : a = i
    · subst hai
      rw [List.getElem?_set_self hilen] at h
      cases h
      obtain ⟨ht1, ht2⟩ := hInv.timing a job hj henq
      show job.arrivalTime ≤ u.currentTime + min quantum job.remainingTime ∧
        job.arrivalTime + job.burstTime
          ≤ u.currentTime + min quantum job.remainingTime
            + (job.remainingTime - min quantum job.remainingTime)
      omega
    · rw [List.getElem?_set_ne (fun hh => hai hh.symm)] at h
      obtain ⟨h1, h2⟩ := hInv.timing a t h henq'
      constructor
      · show t.arrivalTime ≤ u.currentTime + min quantum job.remainingTime
        omega
      · show t.arrivalTime + t.burstTime
          ≤ u.currentTime + min quantum job.remainingTime + t.remainingTime
        omega
  · intro a t c h hc
    by_cases hai : a = i
    · subst hai
      rw [List.getElem?_set_self hilen] at h
      cases h
      obtain ⟨h1, h2⟩ := hInv.completion_le a job c hj hc
      show job.arrivalTime + job.burstTime ≤ c ∧
        c ≤ u.currentTime + min quantum job.remainingTime
      omega
    · rw [List.getElem?_set_ne (fun hh => hai hh.symm)] at h
      obtain ⟨h1, h2⟩ := hInv.completion_le a t c h hc
      constructor
      · exact h1
      · show c ≤ u.currentTime + min quantum job.remainingTime
        omega
  · show sumNonIdle (u.executionTimeline ++ [_]) + sumRemaining (u.jobs.set i _)
      = sumBurst (u.jobs.set i _)
    have hn : sumNonIdle (u.executionTimeline
        ++ [⟨u.currentTime, u.currentTime + min quantum job.remainingTime,
             .job job.id lvl⟩])
        = sumNonIdle u.executionTimeline + min quantum job.remainingTime := by
      rw [sumNonIdle, sumNonIdle, List.filter_append]
      simp
    have hr := summap_set_add TrackedJob.remainingTime
      { job with
         remainingTime := job.remainingTime - min quantum job.remainingTime
         currentLevel := min (job.currentLevel + 1) (Q.length - 1) } hj
    have hb := summap_set_add TrackedJob.burstTime
      { job with
         remainingTime := job.remainingTime - min quantum job.remainingTime
         currentLevel := min (job.currentLevel + 1) (Q.length - 1) } hj
    have hw := hInv.work
    simp only [sumRemaining, sumBurst, sumNonIdle] at hr hb hw ⊢
    rw [List.filter_append]
    simp only [List.map_append, List.sum_append]
    have hfil : (List.filter (fun iv => iv.label != TimelineLabel.idle)
        [(⟨u.currentTime, u.currentTime + min quantum job.remainingTime,
           .job job.id lvl⟩ : ExecInterval)])
        = [⟨u.currentTime, u.currentTime + min quantum job.remainingTime,
            .job job.id lvl⟩] := by
      simp
    rw [hfil]
    simp only [List.map_cons, List.map_nil, List.sum_cons, List.sum_nil]
    omega
  · intro iv hiv hlab
    rcases List.mem_append.1 hiv with h1 | h1
    · exact hInv.idle_unit iv h1 hlab
    · rw [List.mem_singleton.1 h1] at hlab
      exact absurd hlab (by simp)

/-- One successful loop iteration preserves the invariant. -/
theorem step_inv (J : List Job) (Q : List Nat) (s s' : MLFQState)
    (hInv : SchedInv J Q s) (hstep : mlfqStep Q s = some s') :
    SchedInv J Q s' := by
  rcases mlfqStep_elim Q s s' hstep with
    ⟨q1, hp, ⟨hnone, hs'⟩ |
      ⟨lvl, i, q2, job, quantum, hf, hj, hq, ⟨hrem, hs'⟩ | ⟨hrem, q3, he, hs'⟩⟩⟩
  · subst hs'
    exact inv_idle J Q { s with jobs := (admitted s).1, queues := q1 }
      (admit_inv J Q s hInv hp)
  · subst hs'
    exact inv_finish J Q { s with jobs := (admitted s).1, queues := q1 }
      (admit_inv J Q s hInv hp) lvl i q2 job quantum hf hj hrem
  · subst hs'
    exact inv_requeue J Q { s with jobs := (admitted s).1, queues := q1 }
      (admit_inv J Q s hInv hp) lvl i q2 q3 job quantum hf hj hrem he

/-- With a non-empty quantum list, a loop iteration never crashes. -/
theorem step_total (J : List Job) (Q : List Nat) (s : MLFQState)
    (hInv : SchedInv J Q s) (hQne : Q ≠ []) :
    ∃ s', mlfqStep Q s = some s' := by
  cases hstep : mlfqStep Q s with
  | some s' => exact ⟨s', rfl⟩
  | none =>
      exfalso
      simp only [mlfqStep] at hstep
      split at hstep
      · rename_i hpush
        cases hqs : s.queues with
        | nil =>
            have := hInv.queues_len
            rw [hqs] at this
            exact hQne (List.eq_nil_of_length_eq_zero this.symm)
        | cons q0 rest =>
            rw [hqs] at hpush
            unfold pushAll at hpush
            exact Option.noConfusion hpush
      · rename_i q1 hpush
        have hInv1 := admit_inv J Q s hInv hpush
        split at hstep
        · exact Option.noConfusion hstep
        · rename_i lvl i q2 hfind
          obtain ⟨hq2len, hlvl, hflat⟩ := findNonEmpty_some hfind
          have himem : i ∈ q1.flatten := by
            rw [hflat]; exact List.mem_cons_self i _
          have hilt : i < (admitted s).1.length := hInv1.queued_lt i himem
          have hqlen1 : q1.length = Q.length := hInv1.queues_len
          split at hstep
          · rename_i job quantum hjob hquantum
            split at hstep
            · exact Option.noConfusion hstep
            · split at hstep
              · rename_i henqAt
                have hlvl2 : min (job.currentLevel + 1) (Q.length - 1)
                    < q2.length := by
                  have hQlen : 0 < Q.length := List.length_pos.2 hQne
                  have := Nat.min_le_right (job.currentLevel + 1) (Q.length - 1)
                  omega
                obtain ⟨q3, hq3⟩ := enqueueAt_isSome i hlvl2
                rw [hq3] at henqAt
                exact Option.noConfusion henqAt
              · exact Option.noConfusion hstep
          · rename_i hboth
            cases hjob : (admitted s).1[i]? with
            | none =>
                rw [List.getElem?_eq_none_iff] at hjob
                omega
            | some job =>
                cases hquantum : Q[lvl]? with
                | none =>
                    rw [List.getElem?_eq_none_iff] at hquantum
                    omega
                | some quantum => exact hboth job quantum hjob hquantum

/-! ## C4: termination of the scheduling loop -/

/-- Largest arrival time among the tracked jobs. -/
def maxArrival (l : List TrackedJob) : Nat :=
  (l.map TrackedJob.arrivalTime).foldr max 0

theorem le_foldr_max {x : Nat} {xs : List Nat} (h : x ∈ xs) :
    x ≤ xs.foldr max 0 := by
  induction xs with
  | nil => exact absurd h (List.not_mem_nil x)
  | cons a rest ih =>
      rcases List.mem_cons.1 h with h1 | h1
      · subst h1
        exact Nat.le_max_left _ _
      · exact Nat.le_trans (ih h1) (Nat.le_max_right _ _)

theorem le_maxArrival {t : TrackedJob} {l : List TrackedJob} (h : t ∈ l) :
    t.arrivalTime ≤ maxArrival l :=
  le_foldr_max (List.mem_map_of_mem TrackedJob.arrivalTime h)

theorem sumRemaining_admitted (s : MLFQState) :
    sumRemaining (admitted s).1 = sumRemaining s.jobs := by
  rw [admitJobs_fst, sumRemaining, sumRemaining, List.map_map]
  exact congrArg List.sum
    (List.map_congr_left (fun u _ => admitFun_remainingTime _ _))

theorem arrival_map_admitted (s : MLFQState) :
    (admitted s).1.map TrackedJob.arrivalTime
      = s.jobs.map TrackedJob.arrivalTime := by
  rw [admitJobs_fst, List.map_map]
  exact List.map_congr_left (fun u _ => admitFun_arrivalTime _ _)

/-- The arrival times never change across a loop iteration. -/
theorem step_arrival_map (Q : List Nat) (s s' : MLFQState)
    (hstep : mlfqStep Q s = some s') :
    s'.jobs.map TrackedJob.arrivalTime = s.jobs.map TrackedJob.arrivalTime := by
  rcases mlfqStep_elim Q s s' hstep with
    ⟨q1, hp, ⟨hnone, hs'⟩ |
      ⟨lvl, i, q2, job, quantum, hf, hj, hq, ⟨hrem, hs'⟩ | ⟨hrem, q3, he, hs'⟩⟩⟩
  · subst hs'
    exact arrival_map_admitted s
  · subst hs'
    show ((admitted s).1.set i _).map TrackedJob.arrivalTime = _
    rw [List.map_set]
    rw [show ((admitted s).1.map TrackedJob.arrivalTime)
        = s.jobs.map TrackedJob.arrivalTime from arrival_map_admitted s]
    refine set_getElem?_same ?_
    rw [← arrival_map_admitted s, List.getElem?_map, hj]
    rfl
  · subst hs'
    show ((admitted s).1.set i _).map TrackedJob.arrivalTime = _
    rw [List.map_set]
    rw [show ((admitted s).1.map TrackedJob.arrivalTime)
        = s.jobs.map TrackedJob.arrivalTime from arrival_map_admitted s]
    refine set_getElem?_same ?_
    rw [← arrival_map_admitted s, List.getElem?_map, hj]
    rfl

/-- The termination measure: total remaining work, weighted so that one
unit of work dominates all possible idle waiting, plus the idle slack
left until the last arrival. -/
def mlfqMeasure (s : MLFQState) : Nat :=
  sumRemaining s.jobs * (maxArrival s.jobs + 1)
    + (maxArrival s.jobs - min s.currentTime (maxArrival s.jobs))

theorem measure_lt_of_sumRem_lt {sr' sr a d' d : Nat} (h : sr' < sr)
    (hd' : d' ≤ a) :
    sr' * (a + 1) + d' < sr * (a + 1) + d := by
  have h2 : sr' * (a + 1) + d' < (sr' + 1) * (a + 1) := by
    rw [Nat.succ_mul]
    omega
  have h3 : (sr' + 1) * (a + 1) ≤ sr * (a + 1) :=
    Nat.mul_le_mul_right _ h
  omega

/-- While the loop guard holds and all quanta are positive, every
iteration strictly decreases the measure: a dispatch consumes at least
one unit of remaining time, and an idle step burns one unit of the slack
before the next arrival. -/
theorem step_measure (J : List Job) (Q : List Nat) (s s' : MLFQState)
    (hInv : SchedInv J Q s) (hQpos : ∀ q ∈ Q, 0 < q)
    (hg : s.jobsFinished < s.jobs.length)
    (hstep : mlfqStep Q s = some s') :
    mlfqMeasure s' < mlfqMeasure s := by
  have hamap := step_arrival_map Q s s' hstep
  have hmaxA : maxArrival s'.jobs = maxArrival s.jobs := by
    rw [maxArrival, maxArrival, hamap]
  rcases mlfqStep_elim Q s s' hstep with
    ⟨q1, hp, ⟨hnone, hs'⟩ |
      ⟨lvl, i, q2, job, quantum, hf, hj, hq, ⟨hrem, hs'⟩ | ⟨hrem, q3, he, hs'⟩⟩⟩
  -- idle step: some job has not arrived yet, so the clock is before
  -- maxArrival and the slack strictly decreases
  · have hInv1 := admit_inv J Q s hInv hp
    have hcount : s.jobsFinished
        = (admitted s).1.countP (fun t => t.remainingTime == 0) :=
      hInv1.finished_count
    have hlen1 : (admitted s).1.length = s.jobs.length := by
      rw [admitJobs_fst, List.length_map]
    have hex : ∃ t ∈ (admitted s).1, ¬(t.remainingTime == 0) = true := by
      by_contra hall
      push_neg at hall
      have : (admitted s).1.countP (fun t => t.remainingTime == 0)
          = (admitted s).1.length := List.countP_eq_length.2 hall
      omega
    obtain ⟨t, htmem, htrem⟩ := hex
    have htenq : t.enqueued = false := by
      cases hte : t.enqueued with
      | false => rfl
      | true =>
          exfalso
          obtain ⟨a, ha⟩ := List.getElem?_of_mem htmem
          have := hInv1.enq_queued a t ha hte (by
            simp only [beq_iff_eq] at htrem
            omega)
          rw [findNonEmpty_none hnone] at this
          exact absurd this (List.not_mem_nil a)
    obtain ⟨u, humem, huF⟩ : ∃ u ∈ s.jobs, t = admitFun s.currentTime u := by
      rw [admitJobs_fst] at htmem
      obtain ⟨u, humem, hut⟩ := List.mem_map.1 htmem
      exact ⟨u, humem, hut.symm⟩
    have harr : s.currentTime < u.arrivalTime := by
      rw [huF, admitFun_enqueued, Bool.or_eq_false_iff] at htenq
      have := htenq.2
      simp only [decide_eq_false_iff_not, Nat.not_le] at this
      exact this
    have hA : u.arrivalTime ≤ maxArrival s.jobs := le_maxArrival humem
    subst hs'
    rw [mlfqMeasure, mlfqMeasure, hmaxA]
    have hsr : sumRemaining (admitted s).1 = sumRemaining s.jobs :=
      sumRemaining_admitted s
    show sumRemaining (admitted s).1 * _ + (_ - min (s.currentTime + 1) _) < _
    rw [hsr]
    have hlt : s.currentTime < maxArrival s.jobs := by omega
    omega
  -- dispatch that finishes the job: remaining time drops by its full
  -- remaining amount, which is positive
  · have hInv1 := admit_inv J Q s hInv hp
    obtain ⟨hq2len, hlvl, hflat⟩ := findNonEmpty_some hf
    have himem : i ∈ q1.flatten := by rw [hflat]; exact List.mem_cons_self i _
    obtain ⟨henq, hrpos⟩ := hInv1.queued_state i himem job hj
    have hr := summap_set_add TrackedJob.remainingTime
      { job with
         remainingTime := 0
         completionTime :=
           some (s.currentTime + min quantum job.remainingTime) } hj
    subst hs'
    rw [mlfqMeasure, mlfqMeasure, hmaxA]
    refine measure_lt_of_sumRem_lt ?_ (Nat.sub_le _ _)
    show sumRemaining ((admitted s).1.set i _) < sumRemaining s.jobs
    rw [← sumRemaining_admitted s]
    simp only [sumRemaining] at hr ⊢
    omega
  -- dispatch that re-queues: remaining time drops by
  -- min(quantum, remaining) ≥ 1
  · have hInv1 := admit_inv J Q s hInv hp
    obtain ⟨hq2len, hlvl, hflat⟩ := findNonEmpty_some hf
    have himem : i ∈ q1.flatten := by rw [hflat]; exact List.mem_cons_self i _
    obtain ⟨henq, hrpos⟩ := hInv1.queued_state i himem job hj
    have hqpos : 0 < quantum := hQpos quantum (List.getElem?_mem hq)
    have hr := summap_set_add TrackedJob.remainingTime
      { job with
         remainingTime := job.remainingTime - min quantum job.remainingTime
         currentLevel := min (job.currentLevel + 1) (Q.length - 1) } hj
    subst hs'
    rw [mlfqMeasure, mlfqMeasure, hmaxA]
    refine measure_lt_of_sumRem_lt ?_ (Nat.sub_le _ _)
    show sumRemaining ((admitted s).1.set i _) < sumRemaining s.jobs
    rw [← sumRemaining_admitted s]
    simp only [sumRemaining] at hr ⊢
    have hrtpos : 0 < min quantum job.remainingTime := by
      rw [Nat.lt_min]
      exact ⟨hqpos, hrpos⟩
    omega

/-- Extra fuel does not change a finished run. -/
theorem mlfqLoop_mono (Q : List Nat) :
    ∀ (f f' : Nat) (s sf : MLFQState), mlfqLoop Q f s = .finished sf →
      f ≤ f' → mlfqLoop Q f' s = .finished sf := by
  intro f
  induction f with
  | zero => intro f' s sf h; simp [mlfqLoop] at h
  | succ n ih =>
      intro f' s sf h hle
      cases f' with
      | zero => omega
      | succ m =>
          simp only [mlfqLoop] at h ⊢
          split at h
          · rename_i hguard
            rw [if_pos hguard]
            cases hstep : mlfqStep Q s with
            | none => rw [hstep] at h; exact absurd h (by simp)
            | some s' =>
                rw [hstep] at h
                exact ih m s' sf h (by omega)
          · rename_i hguard
            rw [if_neg hguard]
            exact h

/-- From any invariant state, `measure + 1` fuel suffices to finish. -/
theorem loop_term (J : List Job) (Q : List Nat) (hQne : Q ≠ [])
    (hQpos : ∀ q ∈ Q, 0 < q) :
    ∀ (n : Nat) (s : MLFQState), SchedInv J Q s → mlfqMeasure s ≤ n →
      ∃ sf, mlfqLoop Q (n + 1) s = .finished sf ∧ SchedInv J Q sf ∧
        sf.jobs.length ≤ sf.jobsFinished := by
  intro n
  induction n using Nat.strong_induction_on with
  | _ n ih =>
      intro s hInv hm
      by_cases hg : s.jobsFinished < s.jobs.length
      · obtain ⟨s', hstep⟩ := step_total J Q s hInv hQne
        have hInv' := step_inv J Q s s' hInv hstep
        have hdec := step_measure J Q s s' hInv hQpos hg hstep
        cases n with
        | zero => omega
        | succ m =>
            obtain ⟨sf, hf, hinvf, hcnt⟩ :=
              ih (mlfqMeasure s') (by omega) s' hInv' (Nat.le_refl _)
            refine ⟨sf, ?_, hinvf, hcnt⟩
            show mlfqLoop Q (m + 1 + 1) s = .finished sf
            simp only [mlfqLoop]
            rw [if_pos hg, hstep]
            exact mlfqLoop_mono Q (mlfqMeasure s' + 1) (m + 1) s' sf hf
              (by omega)
      · refine ⟨s, ?_, hInv, by omega⟩
        simp only [mlfqLoop]
        rw [if_neg hg]

/-- C4: for every job list with positive burst times and every non-empty
all-positive quantum list, the simulation loop terminates (with enough
fuel it reaches a `finished` state) and the finished-job counter then
equals the total number of jobs. -/
theorem c4_terminates (J : List Job) (Q : List Nat)
    (hJ : ∀ j ∈ J, 0 < j.burstTime) (hQne : Q ≠ [])
    (hQpos : ∀ q ∈ Q, 0 < q) :
    ∃ fuel sf, mlfqLoop Q fuel (initState J Q) = .finished sf ∧
      sf.jobsFinished = sf.jobs.length := by
  have h0 := inv_init J Q hJ
  obtain ⟨sf, hf, hinvf, hcnt⟩ := loop_term J Q hQne hQpos
    (mlfqMeasure (initState J Q)) (initState J Q) h0 (Nat.le_refl _)
  refine ⟨mlfqMeasure (initState J Q) + 1, sf, hf, ?_⟩
  have hle := hinvf.finished_count
  have := List.countP_le_length (l := sf.jobs)
    (p := fun t => t.remainingTime == 0)
  omega

/-- C4 witness: the source's job set with quanta [5,10,20] satisfies the
hypotheses, so its loop terminates with all three jobs finished. -/
theorem c4_witness :
    (∀ j ∈ inputJobs, 0 < j.burstTime) ∧ defaultQuantums ≠ [] ∧
      (∀ q ∈ defaultQuantums, 0 < q) ∧
      ∃ fuel sf, mlfqLoop defaultQuantums fuel
          (initState inputJobs defaultQuantums) = .finished sf ∧
        sf.jobsFinished = sf.jobs.length :=
  ⟨by decide, by decide, by decide,
    c4_terminates inputJobs defaultQuantums (by decide) (by decide)
      (by decide)⟩

/-! ## C9: work conservation -/

/-- The invariant carries to the final state, where the guard fails. -/
theorem mlfqLoop_finished (J : List Job) (Q : List Nat) (fuel : Nat) :
    ∀ s sf, SchedInv J Q s → mlfqLoop Q fuel s = .finished sf →
      SchedInv J Q sf ∧ sf.jobs.length ≤ sf.jobsFinished := by
  induction fuel with
  | zero => intro s sf _ h; simp [mlfqLoop] at h
  | succ n ih =>
      intro s sf hInv h
      simp only [mlfqLoop] at h
      split at h
      · cases hstep : mlfqStep Q s with
        | none => rw [hstep] at h; exact absurd h (by simp)
        | some s' =>
            rw [hstep] at h
            exact ih s' sf (step_inv J Q s s' hInv hstep) h
      · rename_i hguard
        cases h
        exact ⟨hInv, by omega⟩

/-- In the final state every job's remaining time is 0. -/
theorem final_all_done (J : List Job) (Q : List Nat) (sf : MLFQState)
    (hInv : SchedInv J Q sf) (hcnt : sf.jobs.length ≤ sf.jobsFinished) :
    ∀ t ∈ sf.jobs, t.remainingTime = 0 := by
  intro t ht
  have h1 := hInv.finished_count
  have h2 := List.countP_le_length (l := sf.jobs)
    (p := fun u : TrackedJob => u.remainingTime == 0)
  have h3 : sf.jobs.countP (fun u : TrackedJob => u.remainingTime == 0)
      = sf.jobs.length := by omega
  have := List.countP_eq_length.1 h3 t ht
  simpa using this

/-- The burst times of the tracked jobs are those of the registry. -/
theorem burst_map_inv (J : List Job) (Q : List Nat) (s : MLFQState)
    (hInv : SchedInv J Q s) :
    s.jobs.map TrackedJob.burstTime = J.map Job.burstTime := by
  apply List.ext_getElem?
  intro n
  rw [List.getElem?_map, List.getElem?_map]
  cases hn : s.jobs[n]? with
  | none =>
      have h1 : s.jobs.length ≤ n := List.getElem?_eq_none_iff.1 hn
      rw [List.getElem?_eq_none (by rw [← hInv.len_eq]; omega)]
      rfl
  | some t =>
      obtain ⟨j, hj, -, -, h3⟩ := hInv.statics n t hn
      rw [hj]
      simp [h3]

/-- The ids of the tracked jobs are those of the registry. -/
theorem id_map_inv (J : List Job) (Q : List Nat) (s : MLFQState)
    (hInv : SchedInv J Q s) :
    s.jobs.map TrackedJob.id = J.map Job.id := by
  apply List.ext_getElem?
  intro n
  rw [List.getElem?_map, List.getElem?_map]
  cases hn : s.jobs[n]? with
  | none =>
      have h1 : s.jobs.length ≤ n := List.getElem?_eq_none_iff.1 hn
      rw [List.getElem?_eq_none (by rw [← hInv.len_eq]; omega)]
      rfl
  | some t =>
      obtain ⟨j, hj, h1, -, -⟩ := hInv.statics n t hn
      rw [hj]
      simp [h1]

/-- Total duration of the idle intervals of a timeline. -/
def sumIdle (tl : List ExecInterval) : Nat :=
  ((tl.filter (fun iv => iv.label == .idle)).map
    (fun iv => iv.endTime - iv.startTime)).sum

theorem sumDur_decomp (tl : List ExecInterval) :
    sumDur tl = sumNonIdle tl + sumIdle tl := by
  induction tl with
  | nil => rfl
  | cons iv rest ih =>
      simp only [sumDur, sumNonIdle, sumIdle, List.filter_cons,
        List.map_cons, List.sum_cons] at ih ⊢
      cases hl : (iv.label == TimelineLabel.idle) with
      | true =>
          have hb : (iv.label != TimelineLabel.idle)
              = !(iv.label == TimelineLabel.idle) := rfl
          have : (iv.label != TimelineLabel.idle) = false := by
            rw [hb, hl]; rfl
          rw [this]
          simp only [Bool.false_eq_true, if_false, if_true, List.map_cons,
            List.sum_cons]
          omega
      | false =>
          have hb : (iv.label != TimelineLabel.idle)
              = !(iv.label == TimelineLabel.idle) := rfl
          have : (iv.label != TimelineLabel.idle) = true := by
            rw [hb, hl]; rfl
          rw [this]
          simp only [Bool.false_eq_true, if_false, if_true, List.map_cons,
            List.sum_cons]
          omega

theorem sumIdle_eq_idleCount (tl : List ExecInterval)
    (h : ∀ iv ∈ tl, iv.label = .idle → iv.endTime = iv.startTime + 1) :
    sumIdle tl = idleCount tl := by
  induction tl with
  | nil => rfl
  | cons iv rest ih =>
      have hrest := ih (fun jv hjv => h jv (List.mem_cons_of_mem iv hjv))
      simp only [sumIdle, idleCount, List.filter_cons] at hrest ⊢
      cases hl : (iv.label == TimelineLabel.idle) with
      | true =>
          simp only [if_true, List.map_cons, List.sum_cons, List.length_cons]
          have hiv : iv.endTime = iv.startTime + 1 :=
            h iv (List.mem_cons_self iv rest) (by simpa using hl)
          rw [hiv]
          omega
      | false =>
          simp only [Bool.false_eq_true, if_false]
          exact hrest

/-- C9: for every terminated run the total duration of the non-idle
intervals equals the total burst time, and the final clock equals the
total burst time plus the number of 1-unit idle intervals. -/
theorem c9_work_conservation (J : List Job) (Q : List Nat) (fuel : Nat)
    (sf : MLFQState) (hJ : ∀ j ∈ J, 0 < j.burstTime)
    (hrun : mlfqLoop Q fuel (initState J Q) = .finished sf) :
    sumNonIdle sf.executionTimeline = (J.map Job.burstTime).sum ∧
      sf.currentTime
        = (J.map Job.burstTime).sum + idleCount sf.executionTimeline := by
  obtain ⟨hInvf, hcnt⟩ :=
    mlfqLoop_finished J Q fuel (initState J Q) sf (inv_init J Q hJ) hrun
  have halldone := final_all_done J Q sf hInvf hcnt
  have hsr : sumRemaining sf.jobs = 0 := by
    rw [sumRemaining]
    refine List.sum_eq_zero ?_
    intro x hx
    obtain ⟨t, ht, rfl⟩ := List.mem_map.1 hx
    exact halldone t ht
  have hwork := hInvf.work
  rw [hsr, Nat.add_zero] at hwork
  have hburst : sumBurst sf.jobs = (J.map Job.burstTime).sum := by
    rw [sumBurst, burst_map_inv J Q sf hInvf]
  have h1 : sumNonIdle sf.executionTimeline = (J.map Job.burstTime).sum := by
    rw [hwork, hburst]
  refine ⟨h1, ?_⟩
  have hpart := (timeline_partition_final J Q fuel sf hrun).2
  have hdec := sumDur_decomp sf.executionTimeline
  have hidle := sumIdle_eq_idleCount sf.executionTimeline hInvf.idle_unit
  omega

/-- C9 witness: work conservation on the source's first test run
(total burst 23, no idle time, final clock 23). -/
theorem c9_witness :
    sumNonIdle exampleFinalState.executionTimeline
        = (inputJobs.map Job.burstTime).sum ∧
      exampleFinalState.currentTime
        = (inputJobs.map Job.burstTime).sum
          + idleCount exampleFinalState.executionTimeline :=
  c9_work_conservation inputJobs defaultQuantums 30 exampleFinalState
    (by decide) (by rfl)

/-! ## C5: statistics formulas and ordering -/

theorem statsFor_none {jobs : List TrackedJob} {jb : Job}
    (h : jobs.find? (fun j => j.id == jb.id) = none) :
    statsFor jobs jb = { id := jb.id, turnaroundTime := -1, waitingTime := -1 } := by
  unfold statsFor
  rw [h]

theorem statsFor_some {jobs : List TrackedJob} {jb : Job} {tr : TrackedJob}
    (h : jobs.find? (fun j => j.id == jb.id) = some tr) :
    statsFor jobs jb = statsOfTracked jb tr := by
  unfold statsFor
  rw [h]

theorem statsOfTracked_none {jb : Job} {tr : TrackedJob}
    (h : tr.completionTime = none) :
    statsOfTracked jb tr
      = { id := jb.id, turnaroundTime := -1, waitingTime := -1 } := by
  unfold statsOfTracked
  rw [h]

theorem statsOfTracked_some {jb : Job} {tr : TrackedJob} {c : Nat}
    (h : tr.completionTime = some c) :
    statsOfTracked jb tr
      = { id := tr.id, turnaroundTime := (c : Int) - tr.arrivalTime,
          waitingTime := ((c : Int) - tr.arrivalTime) - tr.burstTime } := by
  unfold statsOfTracked
  rw [h]

/-- With pairwise-distinct ids, `find?` by a job's id returns that job. -/
theorem find_by_id {l : List TrackedJob}
    (hnodup : (l.map TrackedJob.id).Nodup) :
    ∀ (i : Nat) (x : TrackedJob), l[i]? = some x →
      ∀ str, x.id = str → l.find? (fun y => y.id == str) = some x := by
  induction l with
  | nil => intro i x hx; simp at hx
  | cons a rest ih =>
      intro i x hx str hstr
      rw [List.map_cons, List.nodup_cons] at hnodup
      cases i with
      | zero =>
          simp only [List.getElem?_cons_zero, Option.some.injEq] at hx
          subst hx
          exact List.find?_cons_of_pos (p := fun y : TrackedJob => y.id == str)
            rest (by
              show (a.id == str) = true
              rw [hstr]
              exact beq_self_eq_true _)
      | succ k =>
          simp only [List.getElem?_cons_succ] at hx
          have hxmem : x ∈ rest := List.getElem?_mem hx
          have hne : ¬((fun y : TrackedJob => y.id == str) a = true) := by
            show ¬(a.id == str) = true
            rw [beq_iff_eq]
            intro hid
            exact hnodup.1 (by
              rw [hid, ← hstr]
              exact List.mem_map_of_mem TrackedJob.id hxmem)
          rw [List.find?_cons_of_neg (p := fun y : TrackedJob => y.id == str)
            rest hne]
          exact ih hnodup.2 k x hx str hstr

/-- C5: for every terminated run (with the registry's data-model
invariants: unique ids, positive bursts), the statistics list is in
registry order, and for each job the reported turnaround is its
completion time minus its arrival time, the reported waiting time is
turnaround minus burst, and waiting time is non-negative. -/
theorem c5_stats (J : List Job) (Q : List Nat) (fuel : Nat)
    (sf : MLFQState) (hJ : ∀ j ∈ J, 0 < j.burstTime)
    (hids : (J.map Job.id).Nodup)
    (hrun : mlfqLoop Q fuel (initState J Q) = .finished sf) :
    (computeStats J sf.jobs).map JobStats.id = J.map Job.id ∧
      ∀ (i : Nat) (jb : Job) (t : TrackedJob) (st : JobStats),
        J[i]? = some jb → sf.jobs[i]? = some t →
        (computeStats J sf.jobs)[i]? = some st →
        ∃ c, t.completionTime = some c ∧
          st.turnaroundTime = (c : Int) - jb.arrivalTime ∧
          st.waitingTime = st.turnaroundTime - jb.burstTime ∧
          0 ≤ st.waitingTime := by
  obtain ⟨hInvf, hcnt⟩ :=
    mlfqLoop_finished J Q fuel (initState J Q) sf (inv_init J Q hJ) hrun
  have halldone := final_all_done J Q sf hInvf hcnt
  have hidsf : (sf.jobs.map TrackedJob.id).Nodup := by
    rw [id_map_inv J Q sf hInvf]
    exact hids
  constructor
  · rw [computeStats, List.map_map]
    refine List.map_congr_left (fun jb _ => ?_)
    show (statsFor sf.jobs jb).id = jb.id
    cases hfind : sf.jobs.find? (fun j => j.id == jb.id) with
    | none => rw [statsFor_none hfind]
    | some tr =>
        rw [statsFor_some hfind]
        cases hc : tr.completionTime with
        | none => rw [statsOfTracked_none hc]
        | some c =>
            rw [statsOfTracked_some hc]
            have := List.find?_some hfind
            rwa [beq_iff_eq] at this
  · intro i jb t st hjb ht hst
    have hid : t.id = jb.id := by
      obtain ⟨j, hj, h1, -, -⟩ := hInvf.statics i t ht
      rw [hjb] at hj
      cases hj
      exact h1
    obtain ⟨j, hj, -, harr, hburst⟩ := hInvf.statics i t ht
    rw [hjb] at hj
    cases hj
    have hfind := find_by_id hidsf i t ht jb.id hid
    have hrem0 : t.remainingTime = 0 := halldone t (List.getElem?_mem ht)
    have hcs : t.completionTime.isSome :=
      (hInvf.completion_iff i t ht).1 hrem0
    obtain ⟨c, hc⟩ := Option.isSome_iff_exists.1 hcs
    obtain ⟨hab, hcle⟩ := hInvf.completion_le i t c ht hc
    have hgjb : (computeStats J sf.jobs)[i]? = some
        { id := t.id, turnaroundTime := (c : Int) - t.arrivalTime,
          waitingTime := ((c : Int) - t.arrivalTime) - t.burstTime } := by
      rw [computeStats, List.getElem?_map, hjb]
      show some (statsFor sf.jobs jb) = some _
      rw [statsFor_some hfind, statsOfTracked_some hc]
    rw [hgjb] at hst
    cases hst
    refine ⟨c, hc, ?_, ?_, ?_⟩
    · show (c : Int) - t.arrivalTime = (c : Int) - jb.arrivalTime
      rw [harr]
    · show ((c : Int) - t.arrivalTime) - t.burstTime
        = ((c : Int) - t.arrivalTime) - jb.burstTime
      rw [hburst]
    · show (0 : Int) ≤ ((c : Int) - t.arrivalTime) - t.burstTime
      rw [harr, hburst] at hab ⊢
      omega

/-- C5 witness: job A of the source's first test: completion 20,
turnaround 20 − 0, waiting 20 − 10 ≥ 0. -/
theorem c5_witness :
    ∃ c, ({ id := "A", arrivalTime := 0, burstTime := 10,
            remainingTime := 0, currentLevel := 1,
            completionTime := some 20,
            enqueued := true } : TrackedJob).completionTime = some c ∧
      ({ id := "A", turnaroundTime := 20, waitingTime := 10 }
          : JobStats).turnaroundTime
        = (c : Int) - (⟨"A", 0, 10⟩ : Job).arrivalTime ∧
      ({ id := "A", turnaroundTime := 20, waitingTime := 10 }
          : JobStats).waitingTime
        = ({ id := "A", turnaroundTime := 20, waitingTime := 10 }
            : JobStats).turnaroundTime - (⟨"A", 0, 10⟩ : Job).burstTime ∧
      0 ≤ ({ id := "A", turnaroundTime := 20, waitingTime := 10 }
          : JobStats).waitingTime :=
  (c5_stats inputJobs defaultQuantums 30 exampleFinalState
      (by decide) (by decide) (by rfl)).2 0
    ⟨"A", 0, 10⟩
    { id := "A", arrivalTime := 0, burstTime := 10, remainingTime := 0,
      currentLevel := 1, completionTime := some 20, enqueued := true }
    { id := "A", turnaroundTime := 20, waitingTime := 10 }
    (by rfl) (by rfl) (by rfl)

/-! ## C10: no mid-interval admission or preemption -/

/-- C10: in every iteration, admission is decided solely by the clock at
the start of the iteration (a job whose arrival time is strictly past
that clock keeps `enqueued = false` for the whole interval), the newly
admitted jobs are appended to the level-0 queue, exactly one interval is
appended to the timeline and the clock jumps to its end in one step, and
a dispatched interval runs a single already-arrived job for exactly
`min(quantum, remaining)` units. -/
theorem c10_dispatch_atomic (J : List Job) (Q : List Nat)
    (s s' : MLFQState) (hInv : SchedInv J Q s)
    (hstep : mlfqStep Q s = some s') :
    (∀ a, a ∈ (admitted s).2 ↔
      ∃ t, s.jobs[a]? = some t ∧ t.enqueued = false ∧
        t.arrivalTime ≤ s.currentTime) ∧
    (∀ queues1, pushAll s.queues (admitted s).2 = some queues1 →
      ∀ a ∈ (admitted s).2, a ∈ queues1.headD []) ∧
    (∀ (a : Nat) (t t' : TrackedJob), s.jobs[a]? = some t →
      s'.jobs[a]? = some t' →
      (t'.enqueued = true ↔
        (t.enqueued = true ∨ t.arrivalTime ≤ s.currentTime))) ∧
    ∃ iv : ExecInterval,
      s'.executionTimeline = s.executionTimeline ++ [iv] ∧
      iv.startTime = s.currentTime ∧
      iv.endTime = s'.currentTime ∧
      ∀ id lvl, iv.label = .job id lvl →
        ∃ (i : Nat) (job : TrackedJob) (quantum : Nat),
          (admitted s).1[i]? = some job ∧ job.id = id ∧
          Q[lvl]? = some quantum ∧
          iv.endTime = iv.startTime + min quantum job.remainingTime ∧
          job.arrivalTime ≤ s.currentTime := by
  have hFenq : ∀ (u : TrackedJob),
      ((admitFun s.currentTime u).enqueued = true ↔
        (u.enqueued = true ∨ u.arrivalTime ≤ s.currentTime)) := by
    intro u
    rw [admitFun_enqueued, Bool.or_eq_true, decide_eq_true_eq]
  refine ⟨admitJobs_snd_mem s.currentTime s.jobs, ?_, ?_, ?_⟩
  · intro queues1 hp a ha
    cases hqs : s.queues with
    | nil =>
        cases hidx : (admitted s).2 with
        | nil =>
            rw [hidx] at ha
            exact absurd ha (List.not_mem_nil a)
        | cons b bs =>
            rw [hqs, hidx] at hp
            unfold pushAll at hp
            simp at hp
    | cons q0 rest =>
        rw [hqs] at hp
        unfold pushAll at hp
        cases hp
        show a ∈ q0 ++ (admitted s).2
        exact List.mem_append_right q0 ha
  · intro a t t' hta hta'
    rcases mlfqStep_elim Q s s' hstep with
      ⟨q1, hp, ⟨hnone, hs'⟩ |
        ⟨lvl, i, q2, job, quantum, hf, hj, hq, ⟨hrem, hs'⟩ | ⟨hrem, q3, he, hs'⟩⟩⟩
    · subst hs'
      dsimp only at hta'
      rw [admitted_fst_getElem, hta] at hta'
      cases hta'
      exact hFenq t
    · obtain ⟨u, hu, rfl⟩ : ∃ u, s.jobs[i]? = some u ∧
          job = admitFun s.currentTime u := by
        rw [admitJobs_fst] at hj
        exact getElem?_map_split hj
      have hilen : i < (admitted s).1.length :=
        (List.getElem?_eq_some_iff.1 hj).1
      subst hs'
      dsimp only at hta'
      by_cases hai : a = i
      · subst hai
        rw [List.getElem?_set_self hilen] at hta'
        cases hta'
        have ht : t = u := by
          rw [hta] at hu
          exact Option.some.injEq _ _ ▸ hu
        subst ht
        exact hFenq t
      · rw [List.getElem?_set_ne (fun hh => hai hh.symm),
          admitted_fst_getElem, hta] at hta'
        cases hta'
        exact hFenq t
    · obtain ⟨u, hu, rfl⟩ : ∃ u, s.jobs[i]? = some u ∧
          job = admitFun s.currentTime u := by
        rw [admitJobs_fst] at hj
        exact getElem?_map_split hj
      have hilen : i < (admitted s).1.length :=
        (List.getElem?_eq_some_iff.1 hj).1
      subst hs'
      dsimp only at hta'
      by_cases hai : a = i
      · subst hai
        rw [List.getElem?_set_self hilen] at hta'
        cases hta'
        have ht : t = u := by
          rw [hta] at hu
          exact Option.some.injEq _ _ ▸ hu
        subst ht
        exact hFenq t
      · rw [List.getElem?_set_ne (fun hh => hai hh.symm),
          admitted_fst_getElem, hta] at hta'
        cases hta'
        exact hFenq t
  · rcases mlfqStep_elim Q s s' hstep with
      ⟨q1, hp, ⟨hnone, hs'⟩ |
        ⟨lvl, i, q2, job, quantum, hf, hj, hq, ⟨hrem, hs'⟩ | ⟨hrem, q3, he, hs'⟩⟩⟩
    · subst hs'
      refine ⟨⟨s.currentTime, s.currentTime + 1, .idle⟩, rfl, rfl, rfl, ?_⟩
      intro id lvl hlab
      exact absurd hlab (by simp)
    · have hInv1 := admit_inv J Q s hInv hp
      obtain ⟨hq2len, hlvl, hflat⟩ := findNonEmpty_some hf
      have himem : i ∈ q1.flatten := by
        rw [hflat]; exact List.mem_cons_self i _
      obtain ⟨henq, hrpos⟩ := hInv1.queued_state i himem job hj
      have harr : job.arrivalTime ≤ s.currentTime :=
        (hInv1.timing i job hj henq).1
      subst hs'
      refine ⟨⟨s.currentTime, s.currentTime + min quantum job.remainingTime,
        .job job.id lvl⟩, rfl, rfl, rfl, ?_⟩
      intro id lvl' hlab
      simp only [TimelineLabel.job.injEq] at hlab
      obtain ⟨hid, hlvl'⟩ := hlab
      subst hid
      subst hlvl'
      exact ⟨i, job, quantum, hj, rfl, hq, rfl, harr⟩
    · have hInv1 := admit_inv J Q s hInv hp
      obtain ⟨hq2len, hlvl, hflat⟩ := findNonEmpty_some hf
      have himem : i ∈ q1.flatten := by
        rw [hflat]; exact List.mem_cons_self i _
      obtain ⟨henq, hrpos⟩ := hInv1.queued_state i himem job hj
      have harr : job.arrivalTime ≤ s.currentTime :=
        (hInv1.timing i job hj henq).1
      subst hs'
      refine ⟨⟨s.currentTime, s.currentTime + min quantum job.remainingTime,
        .job job.id lvl⟩, rfl, rfl, rfl, ?_⟩
      intro id lvl' hlab
      simp only [TimelineLabel.job.injEq] at hlab
      obtain ⟨hid, hlvl'⟩ := hlab
      subst hid
      subst hlvl'
      exact ⟨i, job, quantum, hj, rfl, hq, rfl, harr⟩

/-- C10 witness: the atomic-dispatch properties instantiated on the
first iteration of the source's first test. -/
theorem c10_witness :
    (∀ a, a ∈ (admitted (initState inputJobs defaultQuantums)).2 ↔
      ∃ t, (initState inputJobs defaultQuantums).jobs[a]? = some t ∧
        t.enqueued = false ∧
        t.arrivalTime ≤ (initState inputJobs defaultQuantums).currentTime) ∧
    (∀ queues1, pushAll (initState inputJobs defaultQuantums).queues
        (admitted (initState inputJobs defaultQuantums)).2 = some queues1 →
      ∀ a ∈ (admitted (initState inputJobs defaultQuantums)).2,
        a ∈ queues1.headD []) ∧
    (∀ (a : Nat) (t t' : TrackedJob),
      (initState inputJobs defaultQuantums).jobs[a]? = some t →
      firstStepState.jobs[a]? = some t' →
      (t'.enqueued = true ↔
        (t.enqueued = true ∨
          t.arrivalTime ≤ (initState inputJobs defaultQuantums).currentTime))) ∧
    ∃ iv : ExecInterval,
      firstStepState.executionTimeline
        = (initState inputJobs defaultQuantums).executionTimeline ++ [iv] ∧
      iv.startTime = (initState inputJobs defaultQuantums).currentTime ∧
      iv.endTime = firstStepState.currentTime ∧
      ∀ id lvl, iv.label = .job id lvl →
        ∃ (i : Nat) (job : TrackedJob) (quantum : Nat),
          (admitted (initState inputJobs defaultQuantums)).1[i]? = some job ∧
          job.id = id ∧ defaultQuantums[lvl]? = some quantum ∧
          iv.endTime = iv.startTime + min quantum job.remainingTime ∧
          job.arrivalTime ≤ (initState inputJobs defaultQuantums).currentTime :=
  c10_dispatch_atomic inputJobs defaultQuantums
    (initState inputJobs defaultQuantums) firstStepState
    (inv_init inputJobs defaultQuantums (by decide)) (by rfl)
